import Mathlib

/-!
Verification of the img_sort core pipeline: the triangular pair matrix
(`img_sort.h`), the two minimum-spanning-tree builders (`compute_mst` in the
array-scan revision and in the heap revision of `img_sort.cpp`), and the
pre-order linearizer (`pre_order`).

The C++ code is shallowly embedded: `std::size_t` values become `Nat`
(weights are non-negative by construction), `RUNTIME_ASSERT` failures and
the spec's error taxonomy become `Except` errors, and
`std::numeric_limits<T>::max()` (used only as the "no cost known yet"
initializer, always the top element for every weight that can occur)
becomes `Option Nat` with `none` as the top element.
-/

set_option maxRecDepth 4000

deriving instance DecidableEq for Except

namespace ImgSort

/-- Error taxonomy of the pair-matrix container: the `RUNTIME_ASSERT`
conditions of `triangular_table` in `img_sort.h` (spec section 7). -/
inductive TableError where
  | invalidSize
  | outOfRange
  | invalidPair
deriving DecidableEq

/-- `nth_triangular` from `img_sort.h`: `n * (n + 1) / 2`. -/
def nth_triangular (n : Nat) : Nat := n * (n + 1) / 2

/-- The pair matrix `triangular_table<T>`: a width and the flat backing
vector `m_data` of the strict lower triangle. -/
structure triangular_table (α : Type) where
  width : Nat
  data : List α
deriving DecidableEq

/-- The constructor `triangular_table(n, val)`: allocates
`nth_triangular(n) - n` cells filled with `val`; `RUNTIME_ASSERT(n > 0)`. -/
def mkTable (n : Nat) (v : α) : Except TableError (triangular_table α) :=
  if 0 < n then .ok ⟨n, List.replicate (nth_triangular n - n) v⟩
  else .error .invalidSize

/-- Flat offset of the cell of the unordered pair `{x, y}`: the coordinates
are normalized to `y > x` (the `if (y < x) std::swap(x, y)` step of
`operator()`) and the offset is `nth_triangular(y - 1) + x`. -/
def triIndex (x y : Nat) : Nat :=
  if y < x then nth_triangular (x - 1) + y else nth_triangular (y - 1) + x

/-- `triangular_table::operator()(x, y)`: asserts both coordinates are in
range and distinct, then reads the canonical cell.  Reading `m_data` out of
range cannot happen for a table satisfying the size invariant; it is
modelled as `outOfRange`. -/
def triangular_table.get (t : triangular_table α) (x y : Nat) :
    Except TableError α :=
  if x < t.width ∧ y < t.width then
    if x ≠ y then
      match t.data.get? (triIndex x y) with
      | some v => .ok v
      | none => .error .outOfRange
    else .error .invalidPair
  else .error .outOfRange

/-- In-place mutation of the cell of `{x, y}` (through `get_mut` or an
iterator reference): writes the canonical flat cell. -/
def triangular_table.write (t : triangular_table α) (x y : Nat) (v : α) :
    triangular_table α :=
  ⟨t.width, t.data.set (triIndex x y) v⟩

/-- One `operator++` of `triangular_table::iterator` on the state
`(m_x, m_y, m_prev_triangular)`. -/
def iterStep : Nat × Nat × Nat → Nat × Nat × Nat
  | (x, y, p) => if x + 1 = y then (0, y + 1, p + y) else (x + 1, y, p)

/-- The sequence of iterator states from a given state until the end state
(`m_y = m_width`), with fuel (the iteration always stops after at most
`width * width` steps). -/
def iterStates (width : Nat) : Nat → Nat × Nat × Nat → List (Nat × Nat × Nat)
  | 0, _ => []
  | fuel + 1, s =>
    if s.2.1 < width then s :: iterStates width fuel (iterStep s) else []

/-- The coordinate pairs visited by `iterate_all` (a full
`begin()`/`end()` traversal, which starts at state `(0, 1, 0)`). -/
def iterPairs (width : Nat) : List (Nat × Nat) :=
  (iterStates width (width * width) (0, 1, 0)).map (fun s => (s.1, s.2.1))

/-- Errors of the MST builder: the `RUNTIME_ASSERT(size >= 2)` /
`RUNTIME_ASSERT(size > 0)` size checks, a failing
`RUNTIME_ASSERT(insert_result)`, a propagated table error, popping an empty
`std::priority_queue` (undefined behaviour in C++), and fuel exhaustion of
the embedded loop (unreachable for the real loop bounds). -/
inductive MstError where
  | invalidSize
  | tableError (e : TableError)
  | insertFailed
  | emptyHeap
  | outOfFuel
deriving DecidableEq

/-- The rooted tree is represented by its `(parent, child)` edges in
insertion order; `m_adjacency_list[p]` is recovered by `children` below and
`m_num_edges` is the list length. -/
def children (es : List (Nat × Nat)) (node : Nat) : List Nat :=
  (es.filter (fun e => e.1 == node)).map (fun e => e.2)

/-- `tree::contains`: `node == 0 || m_parent[node] != no_parent`. -/
def treeContains (es : List (Nat × Nat)) (node : Nat) : Bool :=
  node == 0 || es.any (fun e => e.2 == node)

/-- `tree::try_insert`: refuses an already-linked child, otherwise appends
the child to the parent's adjacency list (`emplace_back`). -/
def try_insert (es : List (Nat × Nat)) (parent child : Nat) :
    Option (List (Nat × Nat)) :=
  if treeContains es child then none else some (es ++ [(parent, child)])

/-- The candidate slot `pq_entry` of the array-scan `compute_mst`:
`cost = none` models the `std::numeric_limits<T>::max()` initializer. -/
structure pq_entry where
  source : Nat
  destination : Nat
  cost : Option Nat
deriving DecidableEq

/-- `a <= b` where `b` may be the `max()` sentinel (`none`), which every
weight compares less-or-equal to. -/
def leCost (a : Nat) : Option Nat → Bool
  | none => true
  | some b => decide (a ≤ b)

/-- The single pass over the remaining candidates in the array-scan
`compute_mst`: each slot is updated from the just-inserted node
(`cost_to_just_inserted <= curr_candidate.cost`), and the running minimum
is tracked exactly as in the source — by comparing
`cost_to_just_inserted <= min_entry->cost`, where `min_entry` starts at the
`dummy_entry` (cost `max()`, modelled by `mc = none`) and afterwards points
at the already-updated selected slot (so `mc` holds that slot's stored
cost).  Returns the updated slots, the index of `min_entry` (`none` while
it still points at the dummy), and `min_entry->cost`. -/
def scanGo (w : Nat → Nat → Except TableError Nat) (ji : Nat) :
    List pq_entry → Nat → Option Nat → Option Nat →
    Except TableError (List pq_entry × Option Nat × Option Nat)
  | [], _, mi, mc => .ok ([], mi, mc)
  | c :: rest, i, mi, mc =>
    match w ji c.destination with
    | .error e => .error e
    | .ok ctji =>
      let c' : pq_entry :=
        if leCost ctji c.cost then ⟨ji, c.destination, some ctji⟩ else c
      let mi' := if leCost ctji mc then some i else mi
      let mc' := if leCost ctji mc then c'.cost else mc
      match scanGo w ji rest (i + 1) mi' mc' with
      | .error e => .error e
      | .ok (rest', mi2, mc2) => .ok (c' :: rest', mi2, mc2)

/-- O(1) unordered removal of slot `i`:
`std::swap(candidates[i], candidates.back()); candidates.pop_back();`. -/
def swapRemove (l : List pq_entry) (i : Nat) : List pq_entry :=
  match l.getLast? with
  | none => []
  | some x => (l.set i x).dropLast

/-- The main loop of the array-scan `compute_mst`
(`while (t.num_edges() < final_num_edges)`), as a countdown on the number
of edges still missing: remove the just-inserted slot, scan, insert the
selected slot's edge.  A scan that leaves `min_entry` at the dummy would
make `try_insert(0, 0)` fail the `RUNTIME_ASSERT(insert_result)`, hence
`insertFailed` in the `none` cases. -/
def mstLoop (w : Nat → Nat → Except TableError Nat) :
    Nat → List pq_entry → Nat → Nat → List (Nat × Nat) →
    Except MstError (List (Nat × Nat))
  | 0, _, _, _, es => .ok es
  | k + 1, cs, jii, ji, es =>
    match scanGo w ji (swapRemove cs jii) 0 none none with
    | .error e => .error (.tableError e)
    | .ok (cs2, mi, _) =>
      match mi with
      | none => .error .insertFailed
      | some idx =>
        match cs2.get? idx with
        | none => .error .insertFailed
        | some en =>
          match try_insert es en.source en.destination with
          | none => .error .insertFailed
          | some es2 => mstLoop w k cs2 idx en.destination es2

/-- The array-scan `compute_mst(size, weights)` of the part_000 revision:
`RUNTIME_ASSERT(size >= 2)`, candidate slots `0 .. size-1` with
`cost = max()` and zero-initialized `source`, then `size - 1` iterations of
the scan loop starting from `just_inserted = 0`, `just_inserted_index = 0`. -/
def compute_mst (size : Nat) (w : Nat → Nat → Except TableError Nat) :
    Except MstError (List (Nat × Nat)) :=
  if 2 ≤ size then
    mstLoop w (size - 1) ((List.range size).map fun i => ⟨0, i, none⟩) 0 0 []
  else .error .invalidSize

/-- Heap entry of the heap-based `compute_mst` in `img_sort.cpp`. -/
structure heapEntry where
  source : Nat
  destination : Nat
  weight : Nat
deriving DecidableEq, Inhabited

/-- `pq_entry::operator<`: `weight > other.weight`, so the
`std::priority_queue` (a max-heap w.r.t. `<`) keeps a minimum-weight entry
on top. -/
def heapLt (a b : heapEntry) : Bool := decide (b.weight < a.weight)

/-- Sift-up of `std::push_heap` on the binary heap laid out in a list
(children of `i` at `2i+1`, `2i+2`).  The index strictly decreases, so
`i + 1` fuel always suffices. -/
def siftUpF : Nat → List heapEntry → Nat → List heapEntry
  | 0, a, _ => a
  | _ + 1, a, 0 => a
  | fuel + 1, a, i + 1 =>
    let p := i / 2
    let parent := a.getD p default
    let child := a.getD (i + 1) default
    if heapLt parent child then
      siftUpF fuel ((a.set p child).set (i + 1) parent) p
    else a

/-- First half of the sift-down largest-child selection: the left child
`2i+1` if it is in range and compares above slot `i`, else `i`. -/
def sdTarget1 (a : List heapEntry) (i : Nat) : Nat :=
  if 2 * i + 1 < a.length && heapLt (a.getD i default) (a.getD (2 * i + 1) default)
  then 2 * i + 1 else i

/-- The sift-down swap target: the right child `2i+2` if it is in range and
compares above the intermediate largest, else that intermediate. -/
def sdTarget (a : List heapEntry) (i : Nat) : Nat :=
  if 2 * i + 2 < a.length &&
      heapLt (a.getD (sdTarget1 a i) default) (a.getD (2 * i + 2) default)
  then 2 * i + 2 else sdTarget1 a i

/-- Sift-down of `std::pop_heap`.  The index strictly increases and stays
below the length, so `a.length` fuel always suffices for a non-empty heap. -/
def siftDownF : Nat → List heapEntry → Nat → List heapEntry
  | 0, a, _ => a
  | fuel + 1, a, i =>
    if sdTarget a i = i then a
    else siftDownF fuel
      ((a.set i (a.getD (sdTarget a i) default)).set (sdTarget a i) (a.getD i default))
      (sdTarget a i)

/-- `heap.emplace(...)`: append then sift the new last element up. -/
def heapPush (h : List heapEntry) (x : heapEntry) : List heapEntry :=
  siftUpF (h.length + 1) (h ++ [x]) h.length

/-- `heap.pop()`: remove the root, move the last element to the root and
sift it down. -/
def heapPop : List heapEntry → List heapEntry
  | [] => []
  | [_] => []
  | _ :: rest => siftDownF rest.length (rest.getLastD default :: rest.dropLast) 0

/-- The push loop over `weights.row(curr.destination)` after a successful
insertion: the row yields `x` increasing with `x != y`, the weight is read
for every such `x` (the lazy transform dereferences before the filter on
`t.contains`), and entries `(src = y, dst = x)` are pushed only for nodes
not yet in the tree. -/
def pushRowGo (w : Nat → Nat → Except TableError Nat) (y : Nat)
    (es : List (Nat × Nat)) :
    List Nat → List heapEntry → Except TableError (List heapEntry)
  | [], h => .ok h
  | x :: xs, h =>
    match w x y with
    | .error e => .error e
    | .ok wt =>
      pushRowGo w y es xs
        (if treeContains es x then h else heapPush h ⟨y, x, wt⟩)

/-- The initial fill from `weights.row(0)`: every entry `(src = 0, dst = x)`
for `x != 0` is pushed, with no containment check. -/
def initHeapGo (w : Nat → Nat → Except TableError Nat) :
    List Nat → List heapEntry → Except TableError (List heapEntry)
  | [], h => .ok h
  | x :: xs, h =>
    match w x 0 with
    | .error e => .error e
    | .ok wt => initHeapGo w xs (heapPush h ⟨0, x, wt⟩)

/-- The loop of the heap-based `compute_mst`
(`while (t.num_edges() + 1 < size)`): pop the top entry, try to insert its
edge, and on success push the row of the freshly inserted node
(`weights.row(y)` first asserts `y < m_width`; the table width equals
`size` everywhere in this program).  `top()` on an empty heap is undefined
behaviour, modelled as `emptyHeap`.  The loop needs strictly fewer than
`size * size + size` iterations, the fuel `compute_mst_heap` passes. -/
def heapLoop (size : Nat) (w : Nat → Nat → Except TableError Nat) :
    Nat → List heapEntry → List (Nat × Nat) →
    Except MstError (List (Nat × Nat))
  | 0, _, _ => .error .outOfFuel
  | fuel + 1, h, es =>
    if es.length + 1 < size then
      match h with
      | [] => .error .emptyHeap
      | curr :: _ =>
        match try_insert es curr.source curr.destination with
        | none => heapLoop size w fuel (heapPop h) es
        | some es2 =>
          if curr.destination < size then
            match pushRowGo w curr.destination es2
                ((List.range size).filter fun x => x != curr.destination)
                (heapPop h) with
            | .error e => .error (.tableError e)
            | .ok h2 => heapLoop size w fuel h2 es2
          else .error (.tableError .outOfRange)
    else .ok es

/-- The heap-based `compute_mst(size, weights)` of `img_sort.cpp`: the
`tree` constructor asserts `size > 0` (there is no `size >= 2` check in
this revision), the heap is seeded from `weights.row(0)`, then the loop
runs until the tree has `size - 1` edges. -/
def compute_mst_heap (size : Nat) (w : Nat → Nat → Except TableError Nat) :
    Except MstError (List (Nat × Nat)) :=
  if 0 < size then
    match initHeapGo w ((List.range size).filter fun x => x != 0) [] with
    | .error e => .error (.tableError e)
    | .ok h => heapLoop size w (size * size + size) h []
  else .error .invalidSize

/-- The explicit-stack traversal of `pre_order`: pop the top node, append
it to the output and push its children in reverse discovery order, so the
stack (top first) continues with the children in discovery order.  One
fuel unit per iteration; `num_edges + 2` units suffice for every
well-formed tree. -/
def preOrderGo (es : List (Nat × Nat)) :
    Nat → List Nat → List Nat → Option (List Nat)
  | 0, _, _ => none
  | _ + 1, [], order => some order
  | fuel + 1, cur :: rest, order =>
    preOrderGo es fuel (children es cur ++ rest) (order ++ [cur])

/-- `pre_order(mst)`: traverse from the root `0` and check
`RUNTIME_ASSERT(order.size() == mst.num_edges() + 1)`; an assert failure or
a diverging traversal of a malformed tree is `none`. -/
def pre_order (es : List (Nat × Nat)) : Option (List Nat) :=
  match preOrderGo es (es.length + 2) [0] [] with
  | none => none
  | some order =>
    if order.length = es.length + 1 then some order else none

/-- Well-formedness of an edge list as built by the MST loops: each edge
links an already-present parent to a fresh child (`acc` is the list of
nodes present so far, initially `[0]`). -/
def wfFromB : List Nat → List (Nat × Nat) → Bool
  | _, [] => true
  | acc, (p, c) :: rest =>
    acc.contains p && !(acc.contains c) && wfFromB (acc ++ [c]) rest

/-- Total weight of a tree's edges under a cost matrix. -/
def mstCost (f : Nat → Nat → Nat) (es : List (Nat × Nat)) : Nat :=
  (es.map fun e => f e.1 e.2).sum

/-- A pure cost matrix lifted to the fallible lookup interface. -/
def okW (f : Nat → Nat → Nat) : Nat → Nat → Except TableError Nat :=
  fun i j => .ok (f i j)

/-- The symmetric 4-node matrix of the spec's MST-optimality test:
`d(0,1)=1, d(0,2)=4, d(0,3)=4, d(1,2)=1, d(1,3)=4, d(2,3)=1`. -/
def w4opt (i j : Nat) : Nat :=
  match min i j, max i j with
  | 0, 1 => 1
  | 0, 2 => 4
  | 0, 3 => 4
  | 1, 2 => 1
  | 1, 3 => 4
  | 2, 3 => 1
  | _, _ => 0

/-- The symmetric 3-node matrix of the spec's end-to-end test:
`d(0,1)=5, d(0,2)=1, d(1,2)=9`. -/
def w3e2e (i j : Nat) : Nat :=
  match min i j, max i j with
  | 0, 1 => 5
  | 0, 2 => 1
  | 1, 2 => 9
  | _, _ => 0

/-- A symmetric 4-node matrix with pairwise distinct costs:
`d(0,1)=8, d(0,2)=6, d(0,3)=10, d(1,2)=20, d(1,3)=7, d(2,3)=9`.
Its unique MST is `{(0,2), (0,1), (1,3)}` of weight 21. -/
def w4bug (i j : Nat) : Nat :=
  match min i j, max i j with
  | 0, 1 => 8
  | 0, 2 => 6
  | 0, 3 => 10
  | 1, 2 => 20
  | 1, 3 => 7
  | 2, 3 => 9
  | _, _ => 0

/-! ## Arithmetic of the triangular-number flat mapping -/

theorem tri_succ (n : Nat) :
    nth_triangular (n + 1) = nth_triangular n + (n + 1) := by
  unfold nth_triangular
  have h : (n + 1) * (n + 1 + 1) = n * (n + 1) + (n + 1) * 2 := by ring
  rw [h, Nat.add_mul_div_right _ _ (by omega : 0 < 2)]

theorem tri_mono {m n : Nat} (h : m ≤ n) :
    nth_triangular m ≤ nth_triangular n := by
  unfold nth_triangular
  exact Nat.div_le_div_right (Nat.mul_le_mul h (by omega))

theorem triIndex_eq_of_lt {i j : Nat} (h : i < j) :
    triIndex i j = nth_triangular (j - 1) + i := by
  unfold triIndex
  rw [if_neg (by omega)]

theorem triIndex_comm {i j : Nat} (h : i ≠ j) : triIndex i j = triIndex j i := by
  rcases Nat.lt_or_ge i j with hlt | hge
  · rw [triIndex_eq_of_lt hlt]
    unfold triIndex
    rw [if_pos hlt]
  · have hlt : j < i := by omega
    rw [triIndex_eq_of_lt hlt]
    unfold triIndex
    rw [if_pos hlt]

theorem triIndex_lt {i j n : Nat} (hij : i < j) (hj : j < n) :
    triIndex i j < nth_triangular n - n := by
  have h1 : triIndex i j < nth_triangular j := by
    rw [triIndex_eq_of_lt hij]
    have h := tri_succ (j - 1)
    rw [(by omega : j - 1 + 1 = j)] at h
    omega
  have h2 : nth_triangular j ≤ nth_triangular (n - 1) :=
    tri_mono (by omega)
  have h3 : nth_triangular (n - 1) + n = nth_triangular n := by
    have h := tri_succ (n - 1)
    rw [(by omega : n - 1 + 1 = n)] at h
    omega
  omega

/-- The canonical normalized form of `triIndex`. -/
theorem triIndex_minmax {i j : Nat} (h : i ≠ j) :
    triIndex i j = nth_triangular (max i j - 1) + min i j := by
  rcases Nat.lt_or_ge i j with hlt | hge
  · rw [triIndex_eq_of_lt hlt, Nat.max_eq_right (by omega),
      Nat.min_eq_left (by omega)]
  · have hlt : j < i := by omega
    rw [triIndex_comm h, triIndex_eq_of_lt hlt, Nat.max_eq_left (by omega),
      Nat.min_eq_right (by omega)]

theorem triIndex_lt_len {i j n : Nat} (hi : i < n) (hj : j < n) (hij : i ≠ j) :
    triIndex i j < nth_triangular n - n := by
  rcases Nat.lt_or_ge i j with hlt | hge
  · exact triIndex_lt hlt hj
  · rw [triIndex_comm hij]
    exact triIndex_lt (by omega) hi

/-! ## The pair matrix: symmetric reads and writes -/

/-- Claim C8: for every pair matrix and every valid pair `i ≠ j`,
`get(i,j)` equals `get(j,i)`; after an in-place mutation of the cell
through either coordinate order the written value is visible identically
through both coordinate orders; mutation through either coordinate order
produces the same table, and it coincides with a write through the
iterator's flat reference (`m_prev_triangular + m_x`, i.e. the canonical
cell `nth_triangular(max-1) + min`). -/
theorem mutation_symmetric {α : Type} (t : triangular_table α)
    (i j : Nat) (v : α)
    (hi : i < t.width) (hj : j < t.width) (hij : i ≠ j)
    (hlen : t.data.length = nth_triangular t.width - t.width) :
    t.get i j = t.get j i ∧
    (t.write i j v).get i j = .ok v ∧
    (t.write i j v).get j i = .ok v ∧
    (t.write j i v).get i j = .ok v ∧
    t.write i j v = t.write j i v ∧
    t.write i j v =
      ⟨t.width, t.data.set (nth_triangular (max i j - 1) + min i j) v⟩ := by
  have hidx : triIndex i j < t.data.length := by
    rw [hlen]; exact triIndex_lt_len hi hj hij
  have hcomm := triIndex_comm hij
  have hget : ∀ (u : triangular_table α), u.width = t.width →
      u.data.get? (triIndex i j) = some v → u.get i j = .ok v := by
    intro u hw hv
    unfold triangular_table.get
    rw [if_pos (by rw [hw]; exact ⟨hi, hj⟩), if_pos hij, hv]
  have hset : (t.data.set (triIndex i j) v).get? (triIndex i j) = some v := by
    rw [List.get?_eq_getElem?]
    exact List.getElem?_set_eq_of_lt v hidx
  refine ⟨?_, ?_, ?_, ?_, ?_, ?_⟩
  · unfold triangular_table.get
    rw [if_pos ⟨hi, hj⟩, if_pos hij, if_pos ⟨hj, hi⟩, if_pos (Ne.symm hij),
      hcomm]
  · exact hget (t.write i j v) rfl hset
  · unfold triangular_table.get
    rw [show (t.write i j v).width = t.width from rfl,
      if_pos ⟨hj, hi⟩, if_pos (Ne.symm hij)]
    rw [show (t.write i j v).data = t.data.set (triIndex i j) v from rfl,
      ← hcomm, hset]
  · refine hget (t.write j i v) rfl ?_
    rw [show (t.write j i v).data = t.data.set (triIndex j i) v from rfl,
      ← hcomm]
    exact hset
  · unfold triangular_table.write
    rw [hcomm]
  · unfold triangular_table.write
    rw [triIndex_minmax hij]

/-- Witness for `mutation_symmetric` on a fresh 4-wide table. -/
theorem mutation_symmetric_wit :
    ((⟨4, List.replicate 6 0⟩ : triangular_table Nat).get 1 3 =
      (⟨4, List.replicate 6 0⟩ : triangular_table Nat).get 3 1) ∧
    ((⟨4, List.replicate 6 0⟩ : triangular_table Nat).write 1 3 42).get 1 3 =
      .ok 42 := by
  have h := mutation_symmetric (⟨4, List.replicate 6 0⟩ : triangular_table Nat)
    1 3 42 (by decide) (by decide) (by decide) (by decide)
  exact ⟨h.1, h.2.1⟩

/-! ## The all-pairs iteration -/

/-- Canonical description of the tail of the all-pairs iteration: all pairs
`(x, z)` with `x < z` and `y ≤ z < n`, row by row. -/
def rowsFrom (n y : Nat) : List (Nat × Nat) :=
  (List.range' y (n - y)).flatMap fun z => (List.range z).map fun x => (x, z)

theorem rowsFrom_stop {n y : Nat} (h : n ≤ y) : rowsFrom n y = [] := by
  unfold rowsFrom
  rw [Nat.sub_eq_zero_of_le h]
  rfl

theorem rowsFrom_unfold {n y : Nat} (h : y < n) :
    rowsFrom n y =
      ((List.range' 0 y).map fun x => (x, y)) ++ rowsFrom n (y + 1) := by
  unfold rowsFrom
  rw [(by omega : n - y = (n - (y + 1)) + 1), List.range'_succ,
    List.flatMap_cons, List.range_eq_range']

theorem iterStates_stop {n : Nat} (fuel x y p : Nat) (h : n ≤ y) :
    iterStates n fuel (x, y, p) = [] := by
  cases fuel with
  | zero => rfl
  | succ f =>
    unfold iterStates
    rw [if_neg (by simp; omega)]

theorem iterStates_succ {n f x y p : Nat} (h : y < n) :
    iterStates n (f + 1) (x, y, p) = (x, y, p) :: iterStates n f (iterStep (x, y, p)) := by
  show (if y < n then (x, y, p) :: iterStates n f (iterStep (x, y, p)) else []) = _
  rw [if_pos h]

theorem iterStep_row {x y p : Nat} (h : x + 1 ≠ y) :
    iterStep (x, y, p) = (x + 1, y, p) := by
  show (if x + 1 = y then ((0 : Nat), y + 1, p + y) else (x + 1, y, p)) = _
  rw [if_neg h]

theorem iterStep_next {x y p : Nat} (h : x + 1 = y) :
    iterStep (x, y, p) = (0, y + 1, p + y) := by
  show (if x + 1 = y then ((0 : Nat), y + 1, p + y) else (x + 1, y, p)) = _
  rw [if_pos h]

theorem iter_main {n : Nat} :
    ∀ (fuel x y p : Nat), x < y → y < n →
      (iterStates n fuel (x, y, p)).map (fun s => (s.1, s.2.1)) =
        List.take fuel
          (((List.range' x (y - x)).map fun i => (i, y)) ++ rowsFrom n (y + 1)) := by
  intro fuel
  induction fuel with
  | zero =>
    intro x y p _ _
    rw [show iterStates n 0 (x, y, p) = [] from rfl]
    simp
  | succ f ih =>
    intro x y p hxy hyn
    rw [iterStates_succ hyn, (by omega : y - x = (y - (x + 1)) + 1),
      List.range'_succ]
    simp only [List.map_cons, List.cons_append, List.take_succ_cons]
    refine congrArg (List.cons (x, y)) ?_
    by_cases hstep : x + 1 = y
    · rw [iterStep_next hstep, (by omega : y - (x + 1) = 0)]
      simp only [List.range'_zero, List.map_nil, List.nil_append]
      by_cases hnext : y + 1 < n
      · rw [ih 0 (y + 1) (p + y) (by omega) hnext, rowsFrom_unfold hnext,
          Nat.sub_zero]
      · rw [iterStates_stop f 0 (y + 1) (p + y) (by omega),
          rowsFrom_stop (by omega)]
        simp
    · rw [iterStep_row hstep, ih (x + 1) y p (by omega) hyn]

theorem rowsFrom_length (n : Nat) :
    ∀ (d y : Nat), 1 ≤ y → y + d = n →
      (rowsFrom n y).length + nth_triangular (y - 1) = nth_triangular (n - 1) := by
  intro d
  induction d with
  | zero =>
    intro y hy hyn
    rw [rowsFrom_stop (by omega), (by omega : y - 1 = n - 1)]
    simp
  | succ d ih =>
    intro y hy hyn
    rw [rowsFrom_unfold (by omega)]
    have h1 := ih (y + 1) (by omega) (by omega)
    have h2 := tri_succ (y - 1)
    rw [(by omega : y - 1 + 1 = y)] at h2
    rw [(by omega : y + 1 - 1 = y)] at h1
    simp only [List.length_append, List.length_map, List.length_range']
    omega

theorem mem_rowsFrom {n y a b : Nat} :
    (a, b) ∈ rowsFrom n y ↔ y ≤ b ∧ b < n ∧ a < b := by
  unfold rowsFrom
  simp only [List.mem_flatMap, List.mem_map, List.mem_range'_1, List.mem_range,
    Prod.mk.injEq]
  constructor
  · rintro ⟨z, ⟨hz1, hz2⟩, x, hx, hax, hbz⟩
    omega
  · rintro ⟨h1, h2, h3⟩
    exact ⟨b, ⟨h1, by omega⟩, a, h3, rfl, rfl⟩

theorem pairwise_rowsFrom {n : Nat} :
    ∀ (d y : Nat), y + d = n →
      (rowsFrom n y).Pairwise
        (fun a b => a.2 < b.2 ∨ (a.2 = b.2 ∧ a.1 < b.1)) := by
  intro d
  induction d with
  | zero =>
    intro y hyn
    rw [rowsFrom_stop (by omega)]
    exact List.Pairwise.nil
  | succ d ih =>
    intro y hyn
    rw [rowsFrom_unfold (by omega)]
    rw [List.pairwise_append]
    refine ⟨?_, ih (y + 1) (by omega), ?_⟩
    · refine List.Pairwise.map _ ?_ (List.pairwise_lt_range' 0 y)
      intro a b hab
      exact Or.inr ⟨rfl, hab⟩
    · intro a ha b hb
      simp only [List.mem_map, List.mem_range'_1] at ha
      obtain ⟨x, _, hax⟩ := ha
      have hb2 : y + 1 ≤ b.2 := by
        rcases b with ⟨b1, b2⟩
        exact (mem_rowsFrom.mp hb).1
      left
      rw [← hax]
      simpa using hb2

theorem nodup_rowsFrom (n y : Nat) (h : y + (n - y) = n) :
    (rowsFrom n y).Nodup := by
  refine (pairwise_rowsFrom (n - y) y h).imp ?_
  rintro ⟨a1, a2⟩ ⟨b1, b2⟩ hR heq
  rw [heq] at hR
  simp only [Prod.mk.injEq] at hR
  omega

theorem count_one_of_nodup_mem {α : Type} [BEq α] [LawfulBEq α]
    {l : List α} {a : α} (nd : l.Nodup) (ha : a ∈ l) : l.count a = 1 := by
  induction l with
  | nil => simp at ha
  | cons x xs ih =>
    rw [List.count_cons]
    rcases List.mem_cons.mp ha with rfl | hmem
    · have h0 : xs.count a = 0 :=
        List.count_eq_zero.mpr (List.nodup_cons.mp nd).1
      simp [h0]
    · have hne : ¬ (a = x) := fun h => (List.nodup_cons.mp nd).1 (h ▸ hmem)
      have h1 : xs.count a = 1 := ih (List.nodup_cons.mp nd).2 hmem
      have hne' : ¬ (x = a) := fun h => hne (Eq.symm h)
      simp [h1, hne']

theorem iterPairs_eq (n : Nat) : iterPairs n = rowsFrom n 1 := by
  rcases Nat.lt_or_ge n 2 with h2 | h2
  · interval_cases n
    · rfl
    · rfl
  · unfold iterPairs
    rw [iter_main (n * n) 0 1 0 (by omega) (by omega)]
    rw [← rowsFrom_unfold (by omega : 1 < n)]
    refine List.take_of_length_le ?_
    have h := rowsFrom_length n (n - 1) 1 (by omega) (by omega)
    rw [(by rfl : (1 : Nat) - 1 = 0), (by rfl : nth_triangular 0 = 0)] at h
    have hle : nth_triangular (n - 1) ≤ n * n := by
      unfold nth_triangular
      calc (n - 1) * (n - 1 + 1) / 2 ≤ (n - 1) * (n - 1 + 1) := Nat.div_le_self _ _
        _ ≤ n * n := Nat.mul_le_mul (by omega) (by omega)
    have ht0 : nth_triangular 0 = 0 := rfl
    omega

/-- Claim C7: a freshly constructed table of size `n ≥ 1` with fill `v`
returns `v` from `get(i, j)` for every valid `i ≠ j`, and the all-pairs
iteration emits exactly `n·(n-1)/2` coordinate pairs, all of the canonical
form `(smaller, larger)`, each unordered pair exactly once, in an order
strictly increasing in `(larger, smaller)` lexicographically — hence the
larger coordinate is monotonically nondecreasing and, within a fixed
larger coordinate, the smaller coordinate strictly increases. -/
theorem fresh_table_and_iteration {α : Type} (n : Nat) (v : α)
    (hn : 1 ≤ n) :
    (∃ t, mkTable n v = .ok t ∧
        ∀ i j, i < n → j < n → i ≠ j → t.get i j = .ok v) ∧
    (iterPairs n).length = n * (n - 1) / 2 ∧
    (∀ p ∈ iterPairs n, p.1 < p.2 ∧ p.2 < n) ∧
    (∀ i j, i < j → j < n → (iterPairs n).count (i, j) = 1) ∧
    (iterPairs n).Pairwise
      (fun a b => a.2 < b.2 ∨ (a.2 = b.2 ∧ a.1 < b.1)) := by
  refine ⟨⟨⟨n, List.replicate (nth_triangular n - n) v⟩, ?_, ?_⟩, ?_, ?_, ?_, ?_⟩
  · unfold mkTable
    rw [if_pos (by omega)]
  · intro i j hi hj hij
    unfold triangular_table.get
    rw [if_pos ⟨hi, hj⟩, if_pos hij]
    rw [List.get?_eq_getElem?, List.getElem?_replicate,
      if_pos (triIndex_lt_len hi hj hij)]
  · rw [iterPairs_eq]
    have h := rowsFrom_length n (n - 1) 1 (by omega) (by omega)
    rw [(by rfl : (1 : Nat) - 1 = 0), (by rfl : nth_triangular 0 = 0)] at h
    have htri : nth_triangular (n - 1) = n * (n - 1) / 2 := by
      unfold nth_triangular
      rw [(by omega : n - 1 + 1 = n), Nat.mul_comm]
    omega
  · rw [iterPairs_eq]
    rintro ⟨a, b⟩ hp
    have h := mem_rowsFrom.mp hp
    exact ⟨h.2.2, h.2.1⟩
  · intro i j hij hj
    rw [iterPairs_eq]
    exact count_one_of_nodup_mem (nodup_rowsFrom n 1 (by omega))
      (mem_rowsFrom.mpr ⟨by omega, hj, hij⟩)
  · rw [iterPairs_eq]
    exact pairwise_rowsFrom (n - 1) 1 (by omega)

/-- Witness for `fresh_table_and_iteration` at `n = 4`, `v = 7`. -/
theorem fresh_table_and_iteration_wit :
    (iterPairs 4).length = 4 * (4 - 1) / 2 ∧ (iterPairs 4).count (1, 3) = 1 := by
  obtain ⟨-, hlen, -, hcount, -⟩ := fresh_table_and_iteration 4 (7 : Nat) (by omega)
  exact ⟨hlen, hcount 1 3 (by omega) (by omega)⟩

/-! ## Concrete runs of the two MST builders -/

/-- Claim C2: on the 4-node matrix `d(0,1)=1, d(0,2)=4, d(0,3)=4, d(1,2)=1,
d(1,3)=4, d(2,3)=1` both `compute_mst` variants return the tree with edges
`(0,1), (1,2), (2,3)`, whose total cost 3 equals the true
minimum-spanning-tree weight: every 3-edge list over valid node pairs costs
at least 3 (each pairwise cost of this matrix is at least 1, and a spanning
tree needs exactly 3 edges). -/
theorem mst_optimality_concrete :
    compute_mst 4 (okW w4opt) = .ok [(0, 1), (1, 2), (2, 3)] ∧
    compute_mst_heap 4 (okW w4opt) = .ok [(0, 1), (1, 2), (2, 3)] ∧
    mstCost w4opt [(0, 1), (1, 2), (2, 3)] = 3 ∧
    (∀ es : List (Nat × Nat), es.length = 3 →
      (∀ e ∈ es, e.1 < 4 ∧ e.2 < 4 ∧ e.1 ≠ e.2) → 3 ≤ mstCost w4opt es) := by
  refine ⟨rfl, rfl, rfl, ?_⟩
  intro es hlen hvalid
  obtain ⟨a, b, c, rfl⟩ := List.length_eq_three.mp hlen
  have hw : ∀ i : Nat, i < 4 → ∀ j : Nat, j < 4 → i ≠ j → 1 ≤ w4opt i j := by
    decide
  have ha := hvalid a (by simp)
  have hb := hvalid b (by simp)
  have hc := hvalid c (by simp)
  have h1 := hw a.1 ha.1 a.2 ha.2.1 ha.2.2
  have h2 := hw b.1 hb.1 b.2 hb.2.1 hb.2.2
  have h3 := hw c.1 hc.1 c.2 hc.2.1 hc.2.2
  simp only [mstCost, List.map_cons, List.map_nil, List.sum_cons,
    List.sum_nil]
  omega

/-- Witness for `mst_optimality_concrete`: its lower bound applied to the
tree the builders actually return. -/
theorem mst_optimality_concrete_wit :
    3 ≤ mstCost w4opt [(0, 1), (1, 2), (2, 3)] :=
  mst_optimality_concrete.2.2.2 [(0, 1), (1, 2), (2, 3)] rfl (by decide)

/-- Claim C5: on the 3-item matrix `d(0,1)=5, d(0,2)=1, d(1,2)=9`, both
builders insert the edges `(0,2)` then `(0,1)`, so the root 0 has children
`[2, 1]` in that discovery order and the pre-order output is `[0, 2, 1]`. -/
theorem end_to_end_three :
    compute_mst 3 (okW w3e2e) = .ok [(0, 2), (0, 1)] ∧
    compute_mst_heap 3 (okW w3e2e) = .ok [(0, 2), (0, 1)] ∧
    children [(0, 2), (0, 1)] 0 = [2, 1] ∧
    pre_order [(0, 2), (0, 1)] = some [0, 2, 1] :=
  ⟨rfl, rfl, rfl, rfl⟩

/-- Counterexample to claim C3: on the symmetric distinct-cost matrix
`w4bug` the array-scan builder returns the tree `(0,2), (2,3), (3,1)` while
the heap builder returns `(0,2), (0,1), (1,3)`; their pre-orders differ. -/
theorem heap_array_divergence :
    compute_mst 4 (okW w4bug) = .ok [(0, 2), (2, 3), (3, 1)] ∧
    compute_mst_heap 4 (okW w4bug) = .ok [(0, 2), (0, 1), (1, 3)] ∧
    pre_order [(0, 2), (2, 3), (3, 1)] = some [0, 2, 3, 1] ∧
    pre_order [(0, 2), (0, 1), (1, 3)] = some [0, 2, 1, 3] ∧
    ([0, 2, 3, 1] : List Nat) ≠ [0, 2, 1, 3] :=
  ⟨rfl, rfl, rfl, rfl, by decide⟩

/-- Amended claim C3: the heap-based and the array-scan `compute_mst`
agree (identical rooted trees with identical child discovery order, hence
identical pre-order) on the spec's concrete test matrices, though not on
every symmetric non-negative matrix. -/
theorem heap_array_agree_concrete :
    compute_mst 3 (okW w3e2e) = compute_mst_heap 3 (okW w3e2e) ∧
    compute_mst 4 (okW w4opt) = compute_mst_heap 4 (okW w4opt) ∧
    pre_order [(0, 2), (0, 1)] = some [0, 2, 1] ∧
    pre_order [(0, 1), (1, 2), (2, 3)] = some [0, 1, 2, 3] :=
  ⟨rfl, rfl, rfl, rfl⟩

/-- Claim C1 (evaluation at the failing input): on the symmetric matrix
`w4bug`, after the first iteration inserts `(0, 2)`, the candidate slots
are `{dest 3, best cost 10 via 0}` and `{dest 1, best cost 8 via 0}`.  The
iteration-2 scan updates slot 3 to cost 9 via node 2 but selects it
(`min_entry` index 0, cost 9) although slot 1 keeps the strictly smaller
best known cost 8: the comparison uses the cost to the just-inserted node
(20) instead of the stored best cost.  The finished tree costs 22, yet the
well-formed spanning tree `(0,2), (0,1), (1,3)` costs 21. -/
theorem scan_skips_minimum :
    compute_mst 4 (okW w4bug) = .ok [(0, 2), (2, 3), (3, 1)] ∧
    swapRemove [⟨0, 3, some 10⟩, ⟨0, 1, some 8⟩, ⟨0, 2, some 6⟩] 2 =
      [⟨0, 3, some 10⟩, ⟨0, 1, some 8⟩] ∧
    scanGo (okW w4bug) 2 [⟨0, 3, some 10⟩, ⟨0, 1, some 8⟩] 0 none none =
      .ok ([⟨2, 3, some 9⟩, ⟨0, 1, some 8⟩], some 0, some 9) ∧
    mstLoop (okW w4bug) 2 [⟨0, 3, some 10⟩, ⟨0, 1, some 8⟩, ⟨0, 2, some 6⟩]
      2 2 [(0, 2)] = .ok [(0, 2), (2, 3), (3, 1)] ∧
    mstCost w4bug [(0, 2), (2, 3), (3, 1)] = 22 ∧
    mstCost w4bug [(0, 2), (0, 1), (1, 3)] = 21 ∧
    wfFromB [0] [(0, 2), (0, 1), (1, 3)] = true :=
  ⟨rfl, rfl, rfl, rfl, rfl, rfl, rfl⟩

/-- Counterexample to claim C6: the heap-based `compute_mst` of
`img_sort.cpp` does not reject `n = 1`; it returns an edgeless tree. -/
theorem heap_accepts_single :
    compute_mst_heap 1 (okW w3e2e) = .ok [] := rfl

/-! ## Structure of well-formed trees -/

/-- The nodes of a tree in discovery order: the root and the children in
insertion order. -/
def nodesOf (es : List (Nat × Nat)) : List Nat := 0 :: es.map (fun e => e.2)

/-- The unique parent of a child node (`0` for nodes with no edge, in
particular the root). -/
def par (es : List (Nat × Nat)) (c : Nat) : Nat :=
  match es.find? (fun e => e.2 == c) with
  | some e => e.1
  | none => 0

/-- Iterated parent. -/
def anc (es : List (Nat × Nat)) : Nat → Nat → Nat
  | 0, v => v
  | k + 1, v => par es (anc es k v)

theorem wfFromB_cons {acc : List Nat} {p c : Nat} {rest : List (Nat × Nat)} :
    wfFromB acc ((p, c) :: rest) = true ↔
      p ∈ acc ∧ c ∉ acc ∧ wfFromB (acc ++ [c]) rest = true := by
  show (acc.contains p && !(acc.contains c) && wfFromB (acc ++ [c]) rest) = true ↔ _
  simp [List.elem_iff, and_assoc]

theorem wf_nodup :
    ∀ (es : List (Nat × Nat)) (acc : List Nat), acc.Nodup →
      wfFromB acc es = true → (acc ++ es.map (fun e => e.2)).Nodup := by
  intro es
  induction es with
  | nil => intro acc hacc _; simpa using hacc
  | cons e rest ih =>
    rcases e with ⟨p, c⟩
    intro acc hacc hwf
    obtain ⟨hp, hc, hrest⟩ := wfFromB_cons.mp hwf
    have hacc' : (acc ++ [c]).Nodup := by
      rw [List.nodup_append]
      refine ⟨hacc, List.nodup_singleton c, ?_⟩
      intro x hx hxc
      rw [List.mem_singleton] at hxc
      exact hc (hxc ▸ hx)
    have h := ih (acc ++ [c]) hacc' hrest
    simpa [List.append_assoc] using h

theorem wf_parent_mem :
    ∀ (es : List (Nat × Nat)) (acc : List Nat), wfFromB acc es = true →
      ∀ p c, (p, c) ∈ es → p ∈ acc ∨ p ∈ es.map (fun e => e.2) := by
  intro es
  induction es with
  | nil => intro acc _ p c h; simp at h
  | cons e rest ih =>
    rcases e with ⟨q, d⟩
    intro acc hwf p c hmem
    obtain ⟨hq, hd, hrest⟩ := wfFromB_cons.mp hwf
    simp only [List.map_cons, List.mem_cons]
    rcases List.mem_cons.mp hmem with heq | hmem'
    · simp only [Prod.mk.injEq] at heq
      exact Or.inl (heq.1 ▸ hq)
    · have h := ih (acc ++ [d]) hrest p c hmem'
      simp only [List.mem_append, List.mem_singleton] at h
      tauto

theorem wf_child_fresh :
    ∀ (es : List (Nat × Nat)) (acc : List Nat), wfFromB acc es = true →
      ∀ p c, (p, c) ∈ es → c ∉ acc := by
  intro es
  induction es with
  | nil => intro acc _ p c h; simp at h
  | cons e rest ih =>
    rcases e with ⟨q, d⟩
    intro acc hwf p c hmem
    obtain ⟨hq, hd, hrest⟩ := wfFromB_cons.mp hwf
    rcases List.mem_cons.mp hmem with heq | hmem'
    · simp only [Prod.mk.injEq] at heq
      exact heq.2 ▸ hd
    · intro hcacc
      exact ih (acc ++ [d]) hrest p c hmem' (by simp [hcacc])

theorem wf_append {p c : Nat} :
    ∀ (es : List (Nat × Nat)) (acc : List Nat),
      wfFromB acc (es ++ [(p, c)]) = true ↔
        wfFromB acc es = true ∧ p ∈ acc ++ es.map (fun e => e.2) ∧
          c ∉ acc ++ es.map (fun e => e.2) := by
  intro es
  induction es with
  | nil =>
    intro acc
    rw [List.nil_append, wfFromB_cons]
    simp [wfFromB]
  | cons e rest ih =>
    rcases e with ⟨q, d⟩
    intro acc
    rw [List.cons_append, wfFromB_cons, wfFromB_cons, ih (acc ++ [d])]
    simp only [List.map_cons, List.append_assoc, List.singleton_append,
      List.mem_append, List.mem_cons]
    tauto

theorem anc_succ (es : List (Nat × Nat)) (k v : Nat) :
    anc es (k + 1) v = par es (anc es k v) := rfl

theorem nodesOf_append (es : List (Nat × Nat)) (p c : Nat) :
    nodesOf (es ++ [(p, c)]) = nodesOf es ++ [c] := by
  simp [nodesOf]

theorem mem_children {es : List (Nat × Nat)} {x c : Nat} :
    c ∈ children es x ↔ (x, c) ∈ es := by
  unfold children
  constructor
  · intro h
    obtain ⟨e, he, hec⟩ := List.mem_map.mp h
    obtain ⟨hmem, hfst⟩ := List.mem_filter.mp he
    have h1 : e.1 = x := by simpa using hfst
    have : e = (x, c) := by
      rcases e with ⟨a, b⟩
      simp only at h1 hec
      rw [h1, hec]
    rwa [this] at hmem
  · intro h
    exact List.mem_map.mpr ⟨(x, c), List.mem_filter.mpr ⟨h, by simp⟩, rfl⟩

theorem children_nodup {es : List (Nat × Nat)} (x : Nat)
    (hnd : (es.map (fun e => e.2)).Nodup) : (children es x).Nodup := by
  unfold children
  exact List.Nodup.sublist
    (List.Sublist.map (fun e => e.2) (List.filter_sublist es)) hnd

theorem find?_child {es : List (Nat × Nat)} {p c : Nat}
    (hnd : (es.map (fun e => e.2)).Nodup) (hmem : (p, c) ∈ es) :
    es.find? (fun e => e.2 == c) = some (p, c) := by
  induction es with
  | nil => simp at hmem
  | cons e rest ih =>
    rcases e with ⟨q, d⟩
    simp only [List.map_cons, List.nodup_cons] at hnd
    by_cases hdc : d = c
    · subst hdc
      rw [List.find?_cons_of_pos _ (by simp)]
      rcases List.mem_cons.mp hmem with heq | hmem'
      · simp only [Prod.mk.injEq] at heq
        rw [heq.1]
      · exact absurd (List.mem_map.mpr ⟨(p, d), hmem', rfl⟩) hnd.1
    · rw [List.find?_cons_of_neg _ (by simp [hdc])]
      refine ih hnd.2 ?_
      rcases List.mem_cons.mp hmem with heq | hmem'
      · simp only [Prod.mk.injEq] at heq
        exact absurd heq.2.symm hdc
      · exact hmem'

theorem par_of_mem {es : List (Nat × Nat)} {p c : Nat}
    (hnd : (es.map (fun e => e.2)).Nodup) (hmem : (p, c) ∈ es) :
    par es c = p := by
  unfold par
  rw [find?_child hnd hmem]

theorem par_root {es : List (Nat × Nat)}
    (h0 : 0 ∉ es.map (fun e => e.2)) : par es 0 = 0 := by
  unfold par
  rw [List.find?_eq_none.mpr ?_]
  intro e he hbe
  exact h0 (List.mem_map.mpr ⟨e, he, by simpa using hbe⟩)

theorem root_not_child {es : List (Nat × Nat)}
    (hwf : wfFromB [0] es = true) : 0 ∉ es.map (fun e => e.2) := by
  intro h
  obtain ⟨e, he, he0⟩ := List.mem_map.mp h
  have hm : (e.1, e.2) ∈ es := by rwa [show (e.1, e.2) = e from rfl]
  refine wf_child_fresh es [0] hwf e.1 e.2 hm ?_
  rw [he0]
  exact List.mem_singleton.mpr rfl

theorem par_mem_nodes {es : List (Nat × Nat)}
    (hwf : wfFromB [0] es = true) (v : Nat) : par es v ∈ nodesOf es := by
  unfold par
  cases hf : es.find? (fun e => e.2 == v) with
  | none => exact List.mem_cons_self 0 _
  | some e =>
    show e.1 ∈ nodesOf es
    have he : e ∈ es := List.mem_of_find?_eq_some hf
    have hm : (e.1, e.2) ∈ es := by rwa [show (e.1, e.2) = e from rfl]
    rcases wf_parent_mem es [0] hwf e.1 e.2 hm with h | h
    · rw [List.mem_singleton] at h
      rw [h]
      exact List.mem_cons_self 0 _
    · exact List.mem_cons_of_mem 0 h

theorem anc_mem {es : List (Nat × Nat)} (hwf : wfFromB [0] es = true)
    {v : Nat} (hv : v ∈ nodesOf es) : ∀ k, anc es k v ∈ nodesOf es := by
  intro k
  induction k with
  | zero => exact hv
  | succ k ih => exact par_mem_nodes hwf (anc es k v)

theorem anc_shift (es : List (Nat × Nat)) :
    ∀ (k v : Nat), anc es (k + 1) v = anc es k (par es v) := by
  intro k
  induction k with
  | zero => intro v; rfl
  | succ k ih =>
    intro v
    rw [anc_succ, ih v, ← anc_succ]

theorem par_append_ne {es : List (Nat × Nat)} {p c x : Nat} (hx : x ≠ c) :
    par (es ++ [(p, c)]) x = par es x := by
  unfold par
  rw [List.find?_append]
  cases hf : es.find? (fun e => e.2 == x) with
  | some e => rfl
  | none =>
    have hn : List.find? (fun e => e.2 == x) [(p, c)] = none := by
      refine List.find?_eq_none.mpr ?_
      intro e he hbe
      rw [List.mem_singleton] at he
      rw [he] at hbe
      simp only [beq_iff_eq] at hbe
      exact hx (Eq.symm hbe)
    rw [hn]
    rfl

theorem par_append_last {es : List (Nat × Nat)} {p c : Nat}
    (hc : c ∉ es.map (fun e => e.2)) : par (es ++ [(p, c)]) c = p := by
  unfold par
  rw [List.find?_append, List.find?_eq_none.mpr ?_]
  · simp
  · intro e he hbe
    exact hc (List.mem_map.mpr ⟨e, he, by simpa using hbe⟩)

theorem root_reach :
    ∀ (es : List (Nat × Nat)), wfFromB [0] es = true →
      ∀ v ∈ nodesOf es, ∃ k, anc es k v = 0 := by
  intro es
  induction es using List.reverseRecOn with
  | nil =>
    intro _ v hv
    rw [nodesOf, List.map_nil, List.mem_singleton] at hv
    exact ⟨0, hv⟩
  | append_singleton es e ih =>
    rcases e with ⟨p, c⟩
    intro hwf
    obtain ⟨hwf', hp, hc⟩ := (wf_append es [0]).mp hwf
    have hp' : p ∈ nodesOf es := hp
    have hc' : c ∉ nodesOf es := hc
    have hpres : ∀ v ∈ nodesOf es, ∀ k,
        anc (es ++ [(p, c)]) k v = anc es k v := by
      intro v hv k
      induction k with
      | zero => rfl
      | succ k ihk =>
        rw [anc_succ, anc_succ, ihk]
        exact par_append_ne
          (fun h => hc' (h ▸ anc_mem hwf' hv k))
    intro v hv
    rw [nodesOf_append, List.mem_append, List.mem_singleton] at hv
    rcases hv with hv | rfl
    · obtain ⟨k, hk⟩ := ih hwf' v hv
      exact ⟨k, by rw [hpres v hv k]; exact hk⟩
    · obtain ⟨k, hk⟩ := ih hwf' p hp'
      refine ⟨k + 1, ?_⟩
      rw [anc_shift, par_append_last ?_, hpres p hp' k]
      · exact hk
      · intro hmem
        exact hc' (List.mem_cons_of_mem 0 hmem)

theorem nodes_nodup {es : List (Nat × Nat)} (hwf : wfFromB [0] es = true) :
    (nodesOf es).Nodup := by
  have h := wf_nodup es [0] (by simp) hwf
  simpa [nodesOf] using h

theorem snd_nodup {es : List (Nat × Nat)} (hwf : wfFromB [0] es = true) :
    (es.map (fun e => e.2)).Nodup := by
  have h := nodes_nodup hwf
  rw [nodesOf] at h
  exact (List.nodup_cons.mp h).2

theorem nodup_subset_length {l m : List Nat} (hl : l.Nodup) (hm : m.Nodup)
    (hsub : ∀ x ∈ l, x ∈ m) : l.length ≤ m.length := by
  rw [← List.toFinset_card_of_nodup hl, ← List.toFinset_card_of_nodup hm]
  apply Finset.card_le_card
  intro x hx
  rw [List.mem_toFinset] at hx ⊢
  exact hsub x hx

/-- If an ancestor of `v` sits on the stack `cur :: rest` and `v ≠ cur`,
then after popping `cur` and pushing its children an ancestor of `v` still
sits on the stack. -/
theorem reach_step {es : List (Nat × Nat)} (hwf : wfFromB [0] es = true)
    {cur : Nat} {rest : List Nat} :
    ∀ (k v : Nat), v ∈ nodesOf es → v ≠ cur →
      anc es k v ∈ cur :: rest →
      ∃ j, anc es j v ∈ children es cur ++ rest := by
  intro k
  induction k using Nat.strong_induction_on with
  | _ k ihk =>
    intro v hv hvc hk
    rcases List.mem_cons.mp hk with hEq | hRest
    · cases k with
      | zero => exact absurd hEq hvc
      | succ k' =>
        by_cases hx : anc es k' v ∈ cur :: rest
        · exact ihk k' (Nat.lt_succ_self k') v hv hvc hx
        · have hxnode : anc es k' v ∈ nodesOf es := anc_mem hwf hv k'
          have hpar : par es (anc es k' v) = cur := hEq
          have hx0 : anc es k' v ≠ 0 := by
            intro h0
            rw [h0, par_root (root_not_child hwf)] at hpar
            apply hx
            rw [h0, ← hpar]
            exact List.mem_cons_self _ _
          have hxsnd : anc es k' v ∈ es.map (fun e => e.2) := by
            rw [nodesOf] at hxnode
            rcases List.mem_cons.mp hxnode with h | h
            · exact absurd h hx0
            · exact h
          obtain ⟨e, he, hesnd⟩ := List.mem_map.mp hxsnd
          have hm : (e.1, e.2) ∈ es := by rwa [show (e.1, e.2) = e from rfl]
          have hpc : par es e.2 = e.1 := par_of_mem (snd_nodup hwf) hm
          have he1 : e.1 = cur := by rw [← hpar, ← hesnd, hpc]
          have hchild : anc es k' v ∈ children es cur := by
            rw [← hesnd]
            exact mem_children.mpr (by rw [← he1]; exact hm)
          exact ⟨k', List.mem_append.mpr (Or.inl hchild)⟩
    · exact ⟨k, List.mem_append.mpr (Or.inr hRest)⟩

/-- The stack-based traversal of `pre_order`, run on a well-formed tree
from any intermediate state whose invariants hold, terminates with an
output list that enumerates every tree node exactly once. -/
theorem dfs_master {es : List (Nat × Nat)} (hwf : wfFromB [0] es = true) :
    ∀ (fuel : Nat) (stack order : List Nat),
      (order ++ stack).Nodup →
      (∀ x ∈ stack, x ∈ nodesOf es) →
      (∀ x ∈ order, x ∈ nodesOf es) →
      (∀ x, x ∈ order ∨ x ∈ stack → x = 0 ∨ par es x ∈ order) →
      (∀ v ∈ nodesOf es, v ∉ order → ∃ k, anc es k v ∈ stack) →
      (nodesOf es).length - order.length < fuel →
      ∃ ord, preOrderGo es fuel stack order = some ord ∧
        ord.length = (nodesOf es).length := by
  have hnodesnd : (nodesOf es).Nodup := nodes_nodup hwf
  have hsndnd : (es.map (fun e => e.2)).Nodup := snd_nodup hwf
  intro fuel
  induction fuel with
  | zero => intro stack order _ _ _ _ _ hbound; omega
  | succ f ih =>
    intro stack order hnd hstackn hordern hclose hreach hbound
    cases stack with
    | nil =>
      refine ⟨order, rfl, ?_⟩
      have hsub : ∀ v ∈ nodesOf es, v ∈ order := by
        intro v hv
        by_contra hvo
        obtain ⟨k, hk⟩ := hreach v hv hvo
        simp at hk
      have hordnd : order.Nodup := by simpa using hnd
      have h1 : order.toFinset = (nodesOf es).toFinset := by
        apply Finset.Subset.antisymm
        · intro x hx
          rw [List.mem_toFinset] at hx ⊢
          exact hordern x hx
        · intro x hx
          rw [List.mem_toFinset] at hx ⊢
          exact hsub x hx
      calc order.length
          = order.toFinset.card := (List.toFinset_card_of_nodup hordnd).symm
        _ = (nodesOf es).toFinset.card := by rw [h1]
        _ = (nodesOf es).length := List.toFinset_card_of_nodup hnodesnd
    | cons cur rest =>
      have hcur_node : cur ∈ nodesOf es := hstackn cur (List.mem_cons_self _ _)
      obtain ⟨hordnd, hcrnd, hdisj⟩ := List.nodup_append.mp hnd
      have hcur_not_order : cur ∉ order :=
        fun h => hdisj h (List.mem_cons_self _ _)
      obtain ⟨hcur_not_rest, hrestnd⟩ := List.nodup_cons.mp hcrnd
      have hch_par : ∀ c ∈ children es cur, par es c = cur := by
        intro c hc
        exact par_of_mem hsndnd (mem_children.mp hc)
      have hch_ne0 : ∀ c ∈ children es cur, c ≠ 0 := by
        intro c hc h0
        have h := wf_child_fresh es [0] hwf cur c (mem_children.mp hc)
        exact h (by rw [h0]; exact List.mem_singleton.mpr rfl)
      have hch_node : ∀ c ∈ children es cur, c ∈ nodesOf es := by
        intro c hc
        rw [nodesOf]
        exact List.mem_cons_of_mem _
          (List.mem_map.mpr ⟨(cur, c), mem_children.mp hc, rfl⟩)
      have hch_fresh : ∀ c ∈ children es cur, c ∉ order ++ cur :: rest := by
        intro c hc hmem
        rcases hclose c (List.mem_append.mp hmem) with h0 | hp
        · exact hch_ne0 c hc h0
        · rw [hch_par c hc] at hp
          exact hcur_not_order hp
      have hchnd : (children es cur).Nodup := children_nodup cur hsndnd
      have hnd' : ((order ++ [cur]) ++ (children es cur ++ rest)).Nodup := by
        rw [List.nodup_append]
        refine ⟨?_, ?_, ?_⟩
        · rw [List.nodup_append]
          refine ⟨hordnd, List.nodup_singleton _, ?_⟩
          intro x hx hxc
          rw [List.mem_singleton] at hxc
          exact hcur_not_order (hxc ▸ hx)
        · rw [List.nodup_append]
          refine ⟨hchnd, hrestnd, ?_⟩
          intro c hc hcr
          exact hch_fresh c hc
            (List.mem_append.mpr (Or.inr (List.mem_cons_of_mem _ hcr)))
        · intro x hx hx2
          rcases List.mem_append.mp hx2 with hxch | hxr
          · rcases List.mem_append.mp hx with hxo | hxc
            · exact hch_fresh x hxch (List.mem_append.mpr (Or.inl hxo))
            · rw [List.mem_singleton] at hxc
              exact hch_fresh x hxch
                (List.mem_append.mpr (Or.inr (hxc ▸ List.mem_cons_self _ _)))
          · rcases List.mem_append.mp hx with hxo | hxc
            · exact hdisj hxo (List.mem_cons_of_mem _ hxr)
            · rw [List.mem_singleton] at hxc
              exact hcur_not_rest (hxc ▸ hxr)
      have hstackn' : ∀ x ∈ children es cur ++ rest, x ∈ nodesOf es := by
        intro x hx
        rcases List.mem_append.mp hx with h | h
        · exact hch_node x h
        · exact hstackn x (List.mem_cons_of_mem _ h)
      have hordern' : ∀ x ∈ order ++ [cur], x ∈ nodesOf es := by
        intro x hx
        rcases List.mem_append.mp hx with h | h
        · exact hordern x h
        · rw [List.mem_singleton] at h
          exact h ▸ hcur_node
      have hclose' : ∀ x, x ∈ order ++ [cur] ∨ x ∈ children es cur ++ rest →
          x = 0 ∨ par es x ∈ order ++ [cur] := by
        intro x hx
        have hmono : par es x ∈ order → par es x ∈ order ++ [cur] :=
          fun h => List.mem_append.mpr (Or.inl h)
        rcases hx with hx | hx
        · rcases List.mem_append.mp hx with h | h
          · rcases hclose x (Or.inl h) with h0 | hp
            · exact Or.inl h0
            · exact Or.inr (hmono hp)
          · rw [List.mem_singleton] at h
            rcases hclose x (Or.inr (h ▸ List.mem_cons_self _ _)) with h0 | hp
            · exact Or.inl h0
            · exact Or.inr (hmono hp)
        · rcases List.mem_append.mp hx with h | h
          · refine Or.inr (List.mem_append.mpr (Or.inr ?_))
            rw [hch_par x h]
            exact List.mem_singleton.mpr rfl
          · rcases hclose x (Or.inr (List.mem_cons_of_mem _ h)) with h0 | hp
            · exact Or.inl h0
            · exact Or.inr (hmono hp)
      have hreach' : ∀ v ∈ nodesOf es, v ∉ order ++ [cur] →
          ∃ k, anc es k v ∈ children es cur ++ rest := by
        intro v hv hvno
        have hvo : v ∉ order := fun h => hvno (List.mem_append.mpr (Or.inl h))
        have hvc : v ≠ cur := fun h =>
          hvno (List.mem_append.mpr (Or.inr (by rw [h]; exact List.mem_singleton.mpr rfl)))
        obtain ⟨k, hk⟩ := hreach v hv hvo
        exact reach_step hwf k v hv hvc hk
      have hbound' : (nodesOf es).length - (order ++ [cur]).length < f := by
        have hlt : (order ++ [cur]).length ≤ (nodesOf es).length := by
          refine nodup_subset_length ?_ hnodesnd hordern'
          rw [List.nodup_append]
          refine ⟨hordnd, List.nodup_singleton _, ?_⟩
          intro x hx hxc
          rw [List.mem_singleton] at hxc
          exact hcur_not_order (hxc ▸ hx)
        simp only [List.length_append, List.length_singleton] at hlt ⊢
        omega
      obtain ⟨ord, hgo, hlen⟩ := ih (children es cur ++ rest) (order ++ [cur])
        hnd' hstackn' hordern' hclose' hreach' hbound'
      exact ⟨ord, hgo, hlen⟩

/-- Claim C9: `pre_order` pops each node, appends it to the output and
pushes its children in reverse discovery order (so the stack continues
with them in discovery order); on every well-formed tree it succeeds and
produces exactly `num_edges + 1` entries, and on the concrete tree where
node 0 has children `[1, 3]` and node 1 has children `[2]` it returns
exactly `[0, 1, 2, 3]`. -/
theorem pre_order_structure :
    (∀ es : List (Nat × Nat), wfFromB [0] es = true →
      ∃ l, pre_order es = some l ∧ l.length = es.length + 1) ∧
    pre_order [(0, 1), (0, 3), (1, 2)] = some [0, 1, 2, 3] := by
  constructor
  · intro es hwf
    have hlen_nodes : (nodesOf es).length = es.length + 1 := by
      rw [nodesOf]
      simp
    obtain ⟨ord, hgo, hlen⟩ := dfs_master hwf (es.length + 2) [0] []
      (by simp)
      (by intro x hx; rw [List.mem_singleton] at hx; rw [hx]; exact List.mem_cons_self _ _)
      (by intro x hx; simp at hx)
      (by
        intro x hx
        rcases hx with hx | hx
        · simp at hx
        · rw [List.mem_singleton] at hx
          exact Or.inl hx)
      (by
        intro v hv _
        obtain ⟨k, hk⟩ := root_reach es hwf v hv
        exact ⟨k, by rw [hk]; exact List.mem_singleton.mpr rfl⟩)
      (by omega)
    refine ⟨ord, ?_, by rw [hlen, hlen_nodes]⟩
    unfold pre_order
    rw [hgo]
    show (if ord.length = es.length + 1 then some ord else none) = some ord
    rw [if_pos (by rw [hlen, hlen_nodes])]
  · rfl

/-- Witness for `pre_order_structure`: its universal part applied to the
concrete example tree. -/
theorem pre_order_structure_wit :
    ∃ l, pre_order [(0, 1), (0, 3), (1, 2)] = some l ∧ l.length = 4 :=
  pre_order_structure.1 [(0, 1), (0, 3), (1, 2)] (by decide)

/-! ## The array-scan MST builder: loop invariants -/

theorem treeContains_iff {es : List (Nat × Nat)} {x : Nat} :
    treeContains es x = true ↔ x ∈ nodesOf es := by
  unfold treeContains nodesOf
  simp only [Bool.or_eq_true, beq_iff_eq, List.any_eq_true, List.mem_cons,
    List.mem_map]

theorem try_insert_fresh {es : List (Nat × Nat)} {p c : Nat}
    (hc : c ∉ nodesOf es) :
    try_insert es p c = some (es ++ [(p, c)]) := by
  unfold try_insert
  rw [if_neg (fun h => hc (treeContains_iff.mp h))]

/-- `swapRemove` removes exactly the element at index `i` (as a multiset). -/
theorem swapRemove_perm {l : List pq_entry} {i : Nat} {e : pq_entry}
    (he : l.get? i = some e) : l.Perm (e :: swapRemove l i) := by
  have hi : i < l.length := by
    by_contra h
    rw [List.get?_eq_none.mpr (by omega)] at he
    exact Option.noConfusion he
  have hei : l[i] = e := by
    rw [List.get?_eq_getElem?, List.getElem?_eq_getElem hi] at he
    exact Option.some.inj he
  have hdec : l = l.take i ++ e :: l.drop (i + 1) := by
    conv_lhs => rw [← List.take_append_drop i l]
    rw [List.drop_eq_getElem_cons hi, hei]
  rcases List.eq_nil_or_concat (l.drop (i + 1)) with hB | ⟨B, b, hB⟩
  · have hgl : l.getLast? = some e := by
      conv_lhs => rw [hdec, hB]
      exact List.getLast?_concat _
    have hsw : swapRemove l i = (l.set i e).dropLast := by
      unfold swapRemove
      rw [hgl]
    rw [hsw, List.set_eq_take_cons_drop e hi, hB, List.dropLast_concat]
    conv_lhs => rw [hdec, hB]
    exact List.perm_append_singleton e _
  · rw [List.concat_eq_append] at hB
    have hgl : l.getLast? = some b := by
      conv_lhs => rw [hdec, hB,
        show l.take i ++ e :: (B ++ [b]) = (l.take i ++ e :: B) ++ [b] by simp]
      exact List.getLast?_concat _
    have hsw : swapRemove l i = (l.set i b).dropLast := by
      unfold swapRemove
      rw [hgl]
    rw [hsw, List.set_eq_take_cons_drop b hi, hB,
      show l.take i ++ b :: (B ++ [b]) = (l.take i ++ b :: B) ++ [b] by simp,
      List.dropLast_concat]
    have h1 : l.Perm (e :: (l.take i ++ (B ++ [b]))) := by
      conv_lhs => rw [hdec, hB]
      exact List.perm_middle
    have h2 : (e :: (l.take i ++ (B ++ [b]))).Perm (e :: (l.take i ++ b :: B)) :=
      List.Perm.cons e (List.Perm.append_left _ (List.perm_append_singleton b B))
    exact h1.trans h2

theorem scanGo_cons {w : Nat → Nat → Except TableError Nat} {ji : Nat}
    {c : pq_entry} {rest : List pq_entry} {i : Nat} {mi mc : Option Nat}
    {ctji : Nat} (hwc : w ji c.destination = .ok ctji) :
    scanGo w ji (c :: rest) i mi mc =
      (match scanGo w ji rest (i + 1)
          (if leCost ctji mc then some i else mi)
          (if leCost ctji mc then
            (if leCost ctji c.cost then
              (⟨ji, c.destination, some ctji⟩ : pq_entry) else c).cost
          else mc) with
      | .error e => .error e
      | .ok (rest', mi2, mc2) =>
        .ok ((if leCost ctji c.cost then
          (⟨ji, c.destination, some ctji⟩ : pq_entry) else c) :: rest', mi2, mc2)) := by
  rw [scanGo, hwc]

/-- Behaviour of one full candidate scan when every weight lookup is valid:
the scan succeeds, destinations are preserved positionally, every slot's
source is the just-inserted node or an old source, and — when the running
minimum starts at the dummy and the candidate list is non-empty — the
final `min_entry` is a real slot index within bounds. -/
theorem scanGo_ok {n : Nat} {w : Nat → Nat → Except TableError Nat}
    {f : Nat → Nat → Nat}
    (hw : ∀ i j, i < n → j < n → i ≠ j → w i j = .ok (f i j))
    {ji : Nat} (hji : ji < n) :
    ∀ (cs : List pq_entry) (i : Nat) (mi mc : Option Nat),
      (∀ c ∈ cs, c.destination < n ∧ c.destination ≠ ji) →
      ∃ cs2 mi2 mc2,
        scanGo w ji cs i mi mc = .ok (cs2, mi2, mc2) ∧
        cs2.map (fun c => c.destination) = cs.map (fun c => c.destination) ∧
        (∀ c ∈ cs2, c.source = ji ∨ ∃ c' ∈ cs, c.source = c'.source) ∧
        ((mi2 = mi ∧ mc2 = mc ∧ (mc = none → cs = [])) ∨
          ∃ j, i ≤ j ∧ j < i + cs.length ∧ mi2 = some j) := by
  intro cs
  induction cs with
  | nil =>
    intro i mi mc _
    exact ⟨[], mi, mc, rfl, rfl, by simp, Or.inl ⟨rfl, rfl, fun _ => rfl⟩⟩
  | cons c rest ih =>
    intro i mi mc hvalid
    have hc := hvalid c (List.mem_cons_self _ _)
    have hwc : w ji c.destination = .ok (f ji c.destination) :=
      hw ji c.destination hji hc.1 (fun h => hc.2 h.symm)
    obtain ⟨cs2, mi2, mc2, hrec, hdest, hsrc, hmi⟩ :=
      ih (i + 1)
        (if leCost (f ji c.destination) mc then some i else mi)
        (if leCost (f ji c.destination) mc then
          (if leCost (f ji c.destination) c.cost then
            (⟨ji, c.destination, some (f ji c.destination)⟩ : pq_entry) else c).cost
        else mc)
        (fun c' hc' => hvalid c' (List.mem_cons_of_mem _ hc'))
    refine ⟨(if leCost (f ji c.destination) c.cost then
        (⟨ji, c.destination, some (f ji c.destination)⟩ : pq_entry) else c) :: cs2,
      mi2, mc2, ?_, ?_, ?_, ?_⟩
    · rw [scanGo_cons hwc, hrec]
    · simp only [List.map_cons, hdest]
      refine congrArg (fun x => x :: _) ?_
      by_cases hb : leCost (f ji c.destination) c.cost = true
      · rw [if_pos hb]
      · rw [if_neg hb]
    · intro c' hc'
      rcases List.mem_cons.mp hc' with rfl | hmem
      · by_cases hb : leCost (f ji c.destination) c.cost = true
        · rw [if_pos hb]
          exact Or.inl rfl
        · rw [if_neg hb]
          exact Or.inr ⟨c, List.mem_cons_self _ _, rfl⟩
      · rcases hsrc c' hmem with h | ⟨c'', hc'', hsame⟩
        · exact Or.inl h
        · exact Or.inr ⟨c'', List.mem_cons_of_mem _ hc'', hsame⟩
    · by_cases hb : leCost (f ji c.destination) mc = true
      · rw [if_pos hb] at hmi
        rcases hmi with ⟨hmi2, _, _⟩ | ⟨j, hj1, hj2, hj3⟩
        · exact Or.inr ⟨i, le_refl i, by simp, hmi2⟩
        · exact Or.inr ⟨j, by omega, by simp; omega, hj3⟩
      · rw [if_neg hb] at hmi
        rcases hmi with ⟨hmi2, hmc2, hnil⟩ | ⟨j, hj1, hj2, hj3⟩
        · refine Or.inl ⟨hmi2, by rwa [if_neg hb] at hmc2, ?_⟩
          intro hmcn
          exfalso
          rw [hmcn] at hb
          exact hb rfl
        · exact Or.inr ⟨j, by omega, by simp; omega, hj3⟩

theorem nodes_eq (es : List (Nat × Nat)) :
    nodesOf es = [0] ++ es.map (fun e => e.2) := rfl

/-- The loop of the array-scan `compute_mst` preserves its invariants and
finishes with a well-formed spanning tree over the nodes `0 .. n-1`. -/
theorem mstLoop_ok {n : Nat} {w : Nat → Nat → Except TableError Nat}
    {f : Nat → Nat → Nat}
    (hw : ∀ i j, i < n → j < n → i ≠ j → w i j = .ok (f i j)) :
    ∀ (k : Nat) (cs : List pq_entry) (jii ji : Nat) (es : List (Nat × Nat)),
      es.length + k = n - 1 →
      cs.length + es.length = n →
      wfFromB [0] es = true →
      (∀ x ∈ nodesOf es, x < n) →
      ji ∈ nodesOf es →
      (cs.map (fun c => c.destination)).get? jii = some ji →
      (cs.map (fun c => c.destination)).Nodup →
      (∀ c ∈ cs, c.destination < n) →
      (∀ c ∈ cs, c.destination ∉ nodesOf es ∨ c.destination = ji) →
      (∀ x, x < n → x ∉ nodesOf es → x ∈ cs.map (fun c => c.destination)) →
      (∀ c ∈ cs, c.source ∈ nodesOf es) →
      ∃ es2, mstLoop w k cs jii ji es = .ok es2 ∧
        wfFromB [0] es2 = true ∧ es2.length = n - 1 ∧
        (∀ x ∈ nodesOf es2, x < n) ∧ (∀ x, x < n → x ∈ nodesOf es2) := by
  intro k
  induction k with
  | zero =>
    intro cs jii ji es hk hcslen hwf hnlt hjin hget hnd hdlt hdout hcover hsrc
    refine ⟨es, rfl, hwf, ?_, hnlt, ?_⟩
    · have := hnlt ji hjin
      omega
    · intro x hx
      by_contra hxn
      have hxd := hcover x hx hxn
      have hn1 : 1 ≤ n := by
        have := hnlt ji hjin
        omega
      have hlen1 : (cs.map (fun c => c.destination)).length = 1 := by
        rw [List.length_map]
        omega
      obtain ⟨a, ha⟩ := List.length_eq_one.mp hlen1
      rw [ha] at hget hxd
      have hjii0 : jii = 0 := by
        by_contra hj0
        rw [List.get?_eq_none.mpr (by simp; omega)] at hget
        exact Option.noConfusion hget
      rw [hjii0] at hget
      have haji : a = ji := by simpa using hget
      have hxa : x = a := by simpa using hxd
      rw [hxa, haji] at hxn
      exact hxn hjin
  | succ k ihk =>
    intro cs jii ji es hk hcslen hwf hnlt hjin hget hnd hdlt hdout hcover hsrc
    have hjilt : ji < n := hnlt ji hjin
    have hcs_get : ∃ e, cs.get? jii = some e ∧ e.destination = ji := by
      rw [List.get?_map] at hget
      cases hcg : cs.get? jii with
      | none => rw [hcg] at hget; simp at hget
      | some e =>
        rw [hcg] at hget
        simp at hget
        exact ⟨e, rfl, hget⟩
    obtain ⟨e0, he0, he0d⟩ := hcs_get
    have hperm : cs.Perm (e0 :: swapRemove cs jii) := swapRemove_perm he0
    have hpermd : (cs.map (fun c => c.destination)).Perm
        (ji :: (swapRemove cs jii).map (fun c => c.destination)) := by
      have h := hperm.map (fun c => c.destination)
      rwa [List.map_cons, he0d] at h
    have hnd1 : (ji :: (swapRemove cs jii).map (fun c => c.destination)).Nodup :=
      hpermd.nodup_iff.mp hnd
    have hji_not1 : ji ∉ (swapRemove cs jii).map (fun c => c.destination) :=
      (List.nodup_cons.mp hnd1).1
    have hnd1' : ((swapRemove cs jii).map (fun c => c.destination)).Nodup :=
      (List.nodup_cons.mp hnd1).2
    have hmem1 : ∀ c ∈ swapRemove cs jii, c ∈ cs :=
      fun c hc => hperm.mem_iff.mpr (List.mem_cons_of_mem _ hc)
    have hlen1 : cs.length = (swapRemove cs jii).length + 1 := by
      have h := hperm.length_eq
      simpa using h
    have hvalid1 : ∀ c ∈ swapRemove cs jii,
        c.destination < n ∧ c.destination ≠ ji := by
      intro c hc
      refine ⟨hdlt c (hmem1 c hc), ?_⟩
      intro hd
      exact hji_not1 (hd ▸ List.mem_map.mpr ⟨c, hc, rfl⟩)
    have hout1 : ∀ c ∈ swapRemove cs jii, c.destination ∉ nodesOf es := by
      intro c hc
      rcases hdout c (hmem1 c hc) with h | h
      · exact h
      · exact absurd h (hvalid1 c hc).2
    obtain ⟨cs2, mi2, mc2, hscan, hdest2, hsrc2, hmi2⟩ :=
      scanGo_ok hw hjilt (swapRemove cs jii) 0 none none hvalid1
    have hcs1_ne : swapRemove cs jii ≠ [] := by
      intro h
      rw [h] at hlen1
      simp at hlen1
      omega
    have hmi3 : ∃ idx, mi2 = some idx ∧ idx < (swapRemove cs jii).length := by
      rcases hmi2 with ⟨_, _, hnil⟩ | ⟨j, hj1, hj2, hj3⟩
      · exact absurd (hnil rfl) hcs1_ne
      · exact ⟨j, hj3, by omega⟩
    obtain ⟨idx, hidx, hidxlt⟩ := hmi3
    have hlen2 : cs2.length = (swapRemove cs jii).length := by
      have h := congrArg List.length hdest2
      simpa using h
    have hget2 : ∃ en, cs2.get? idx = some en := by
      cases hg : cs2.get? idx with
      | none =>
        rw [List.get?_eq_none] at hg
        omega
      | some en => exact ⟨en, rfl⟩
    obtain ⟨en, hen⟩ := hget2
    have hen_mem : en ∈ cs2 := List.get?_mem hen
    have hen_dest_mem1 : en.destination ∈
        (swapRemove cs jii).map (fun c => c.destination) := by
      rw [← hdest2]
      exact List.mem_map.mpr ⟨en, hen_mem, rfl⟩
    obtain ⟨c1, hc1, hc1d⟩ := List.mem_map.mp hen_dest_mem1
    have hen_dlt : en.destination < n := hc1d ▸ (hvalid1 c1 hc1).1
    have hen_dout : en.destination ∉ nodesOf es := hc1d ▸ hout1 c1 hc1
    have hen_src : en.source ∈ nodesOf es := by
      rcases hsrc2 en hen_mem with h | ⟨c', hc', hsame⟩
      · exact h ▸ hjin
      · exact hsame ▸ hsrc c' (hmem1 c' hc')
    have hins : try_insert es en.source en.destination =
        some (es ++ [(en.source, en.destination)]) := try_insert_fresh hen_dout
    have hunf : mstLoop w (k + 1) cs jii ji es =
        mstLoop w k cs2 idx en.destination
          (es ++ [(en.source, en.destination)]) := by
      conv_lhs => rw [mstLoop]
      rw [hscan]
      simp only [hidx, hen, hins]
    have hsub2 : ∀ x ∈ nodesOf es, x ∈ nodesOf (es ++ [(en.source, en.destination)]) := by
      intro x hx
      rw [nodesOf_append]
      exact List.mem_append.mpr (Or.inl hx)
    have hwf2 : wfFromB [0] (es ++ [(en.source, en.destination)]) = true :=
      (wf_append es [0]).mpr ⟨hwf, hen_src, hen_dout⟩
    obtain ⟨es3, hloop, hwf3, hlen3, hlt3, hcov3⟩ :=
      ihk cs2 idx en.destination (es ++ [(en.source, en.destination)])
        (by simp; omega)
        (by simp; omega)
        hwf2
        (by
          intro x hx
          rw [nodesOf_append] at hx
          rcases List.mem_append.mp hx with h | h
          · exact hnlt x h
          · rw [List.mem_singleton] at h
            exact h ▸ hen_dlt)
        (by
          rw [nodesOf_append]
          exact List.mem_append.mpr (Or.inr (List.mem_singleton.mpr rfl)))
        (by rw [List.get?_map, hen]; rfl)
        (by rw [hdest2]; exact hnd1')
        (by
          intro c hc
          have hcd : c.destination ∈
              (swapRemove cs jii).map (fun c => c.destination) := by
            rw [← hdest2]
            exact List.mem_map.mpr ⟨c, hc, rfl⟩
          obtain ⟨c', hc', hd⟩ := List.mem_map.mp hcd
          exact hd ▸ (hvalid1 c' hc').1)
        (by
          intro c hc
          by_cases hce : c.destination = en.destination
          · exact Or.inr hce
          · left
            have hcd : c.destination ∈
                (swapRemove cs jii).map (fun c => c.destination) := by
              rw [← hdest2]
              exact List.mem_map.mpr ⟨c, hc, rfl⟩
            obtain ⟨c', hc', hd⟩ := List.mem_map.mp hcd
            have hno : c.destination ∉ nodesOf es := hd ▸ hout1 c' hc'
            rw [nodesOf_append]
            intro hmem
            rcases List.mem_append.mp hmem with h | h
            · exact hno h
            · rw [List.mem_singleton] at h
              exact hce h)
        (by
          intro x hxlt hxn
          have hxes : x ∉ nodesOf es := fun h => hxn (hsub2 x h)
          have hxne : x ≠ en.destination := by
            intro h
            apply hxn
            rw [nodesOf_append, h]
            exact List.mem_append.mpr (Or.inr (List.mem_singleton.mpr rfl))
          have hxcs := hcover x hxlt hxes
          have hxji : x ≠ ji := by
            intro h
            exact hxes (h ▸ hjin)
          have h1 : x ∈ ji :: (swapRemove cs jii).map (fun c => c.destination) :=
            hpermd.mem_iff.mp hxcs
          rcases List.mem_cons.mp h1 with h | h
          · exact absurd h hxji
          · rw [hdest2]
            exact h)
        (by
          intro c hc
          rcases hsrc2 c hc with h | ⟨c', hc', hsame⟩
          · exact h ▸ hsub2 ji hjin
          · exact hsame ▸ hsub2 c'.source (hsrc c' (hmem1 c' hc')))
    refine ⟨es3, ?_, hwf3, hlen3, hlt3, hcov3⟩
    rw [hunf]
    exact hloop

/-- The array-scan `compute_mst` succeeds for every `n ≥ 2` whenever every
valid weight lookup succeeds, and returns a well-formed spanning tree over
`0 .. n-1`. -/
theorem compute_mst_ok {n : Nat} {w : Nat → Nat → Except TableError Nat}
    {f : Nat → Nat → Nat}
    (hw : ∀ i j, i < n → j < n → i ≠ j → w i j = .ok (f i j))
    (hn : 2 ≤ n) :
    ∃ es, compute_mst n w = .ok es ∧
      wfFromB [0] es = true ∧ es.length = n - 1 ∧
      (∀ x ∈ nodesOf es, x < n) ∧ (∀ x, x < n → x ∈ nodesOf es) := by
  have hmap : ((List.range n).map (fun i => (⟨0, i, none⟩ : pq_entry))).map
      (fun c => c.destination) = List.range n := by
    rw [List.map_map]
    exact List.map_id' (List.range n)
  unfold compute_mst
  rw [if_pos hn]
  refine mstLoop_ok hw (n - 1)
    ((List.range n).map (fun i => (⟨0, i, none⟩ : pq_entry))) 0 0 []
    (by simp) (by simp) rfl ?_ (List.mem_singleton.mpr rfl) ?_ ?_ ?_ ?_ ?_ ?_
  · intro x hx
    rw [show nodesOf [] = [0] from rfl, List.mem_singleton] at hx
    omega
  · rw [hmap]
    exact List.get?_range (by omega)
  · rw [hmap]
    exact List.nodup_range n
  · intro c hc
    obtain ⟨i, hi, rfl⟩ := List.mem_map.mp hc
    simpa using List.mem_range.mp hi
  · intro c hc
    obtain ⟨i, hi, rfl⟩ := List.mem_map.mp hc
    show i ∉ nodesOf [] ∨ i = 0
    rw [show nodesOf [] = [0] from rfl]
    by_cases h0 : i = 0
    · exact Or.inr h0
    · exact Or.inl (by simpa using h0)
  · intro x hx _
    rw [hmap]
    exact List.mem_range.mpr hx
  · intro c hc
    obtain ⟨i, hi, rfl⟩ := List.mem_map.mp hc
    exact List.mem_singleton.mpr rfl

/-- A nodup list of `n` values below `n` contains every value below `n`. -/
theorem list_cover {l : List Nat} {n : Nat} (hnd : l.Nodup)
    (hlt : ∀ x ∈ l, x < n) (hlen : n ≤ l.length) :
    ∀ x, x < n → x ∈ l := by
  intro x hx
  have hsub : l.toFinset ⊆ Finset.range n := by
    intro y hy
    rw [List.mem_toFinset] at hy
    rw [Finset.mem_range]
    exact hlt y hy
  have hcard : (Finset.range n).card ≤ l.toFinset.card := by
    rw [Finset.card_range, List.toFinset_card_of_nodup hnd]
    exact hlen
  have heq := Finset.eq_of_subset_of_card_le hsub hcard
  have : x ∈ l.toFinset := by
    rw [heq, Finset.mem_range]
    exact hx
  rwa [List.mem_toFinset] at this

/-- A nodup list of fewer than `n` values below `n` misses some value
below `n`. -/
theorem exists_missing {l : List Nat} {n : Nat} (hnd : l.Nodup)
    (hlen : l.length < n) : ∃ v, v < n ∧ v ∉ l := by
  by_contra h
  push_neg at h
  have : n ≤ l.length := by
    have := nodup_subset_length (List.nodup_range n) hnd
      (fun x hx => h x (List.mem_range.mp hx))
    simpa using this
  omega

/-- The structural facts of claim C4, derived from well-formedness, the
edge count and node coverage. -/
theorem tree_props {n : Nat} {es : List (Nat × Nat)}
    (hwf : wfFromB [0] es = true)
    (hcov : ∀ x, x < n → x ∈ nodesOf es) :
    (∀ e ∈ es, e.2 ≠ 0) ∧
    (∀ c, 1 ≤ c → c < n → (es.map (fun e => e.2)).count c = 1) := by
  constructor
  · intro e he h0
    have h := wf_child_fresh es [0] hwf e.1 e.2
      (by rwa [show (e.1, e.2) = e from rfl])
    exact h (by rw [h0]; exact List.mem_singleton.mpr rfl)
  · intro c hc1 hcn
    have hmem : c ∈ nodesOf es := hcov c hcn
    rw [nodesOf, List.mem_cons] at hmem
    rcases hmem with h0 | hmem
    · omega
    · exact count_one_of_nodup_mem (snd_nodup hwf) hmem

/-! ## The heap-based MST builder: heap operations preserve elements -/

theorem mem_set_set {a : List heapEntry} {i j : Nat} (hi : i < a.length)
    (hj : j < a.length) (y : heapEntry) :
    (y ∈ (a.set i (a.getD j default)).set j (a.getD i default)) ↔ y ∈ a := by
  have hgi : a.getD i default = a[i] := List.getD_eq_getElem a default hi
  have hgj : a.getD j default = a[j] := List.getD_eq_getElem a default hj
  constructor
  · intro hy
    rcases List.mem_or_eq_of_mem_set hy with hy1 | rfl
    · rcases List.mem_or_eq_of_mem_set hy1 with hy2 | rfl
      · exact hy2
      · rw [hgj]
        exact List.getElem_mem hj
    · rw [hgi]
      exact List.getElem_mem hi
  · intro hy
    obtain ⟨k, hk, hky⟩ := List.mem_iff_getElem.mp hy
    by_cases hkj : k = j
    · subst hkj
      refine List.mem_iff_getElem.mpr ⟨i, by simp only [List.length_set]; exact hi, ?_⟩
      by_cases hik : i = k
      · subst hik
        rw [List.getElem_set_self, hgj]
        exact hky
      · rw [List.getElem_set_ne (fun h => hik h.symm), List.getElem_set_self, hgj]
        exact hky
    · by_cases hki : k = i
      · subst hki
        refine List.mem_iff_getElem.mpr ⟨j, by simp only [List.length_set]; exact hj, ?_⟩
        rw [List.getElem_set_self, hgi]
        exact hky
      · refine List.mem_iff_getElem.mpr ⟨k, by simp only [List.length_set]; exact hk, ?_⟩
        rw [List.getElem_set_ne (fun h => hkj h.symm),
          List.getElem_set_ne (fun h => hki h.symm)]
        exact hky

theorem siftUpF_length : ∀ (fuel : Nat) (a : List heapEntry) (i : Nat),
    (siftUpF fuel a i).length = a.length := by
  intro fuel
  induction fuel with
  | zero => intro a i; rfl
  | succ f ih =>
    intro a i
    cases i with
    | zero => rfl
    | succ i =>
      show (if heapLt (a.getD (i / 2) default) (a.getD (i + 1) default) then
          siftUpF f ((a.set (i / 2) (a.getD (i + 1) default)).set (i + 1)
            (a.getD (i / 2) default)) (i / 2)
        else a).length = a.length
      by_cases hb : heapLt (a.getD (i / 2) default) (a.getD (i + 1) default) = true
      · rw [if_pos hb, ih]
        simp only [List.length_set]
      · rw [if_neg hb]

theorem siftUpF_mem : ∀ (fuel : Nat) (a : List heapEntry) (i : Nat),
    i < a.length → ∀ y, (y ∈ siftUpF fuel a i ↔ y ∈ a) := by
  intro fuel
  induction fuel with
  | zero => intro a i _ y; exact Iff.rfl
  | succ f ih =>
    intro a i hi y
    cases i with
    | zero => exact Iff.rfl
    | succ i =>
      show y ∈ (if heapLt (a.getD (i / 2) default) (a.getD (i + 1) default) then
          siftUpF f ((a.set (i / 2) (a.getD (i + 1) default)).set (i + 1)
            (a.getD (i / 2) default)) (i / 2)
        else a) ↔ y ∈ a
      by_cases hb : heapLt (a.getD (i / 2) default) (a.getD (i + 1) default) = true
      · rw [if_pos hb]
        have hp : i / 2 < a.length := by omega
        rw [ih _ (i / 2) (by simp only [List.length_set]; omega) y]
        exact mem_set_set hp hi y
      · rw [if_neg hb]

theorem sdTarget1_bounds {a : List heapEntry} {i : Nat}
    (h : sdTarget1 a i ≠ i) : i < sdTarget1 a i ∧ sdTarget1 a i < a.length := by
  revert h
  unfold sdTarget1
  split
  · rename_i hcond
    intro _
    simp only [Bool.and_eq_true] at hcond
    have hlen := of_decide_eq_true hcond.1
    exact ⟨by omega, hlen⟩
  · intro h
    exact absurd rfl h

theorem sdTarget_bounds {a : List heapEntry} {i : Nat}
    (h : sdTarget a i ≠ i) : i < sdTarget a i ∧ sdTarget a i < a.length := by
  revert h
  unfold sdTarget
  split
  · rename_i hcond
    intro _
    simp only [Bool.and_eq_true] at hcond
    have hlen := of_decide_eq_true hcond.1
    exact ⟨by omega, hlen⟩
  · exact sdTarget1_bounds

theorem siftDownF_length : ∀ (fuel : Nat) (a : List heapEntry) (i : Nat),
    (siftDownF fuel a i).length = a.length := by
  intro fuel
  induction fuel with
  | zero => intro a i; rfl
  | succ f ih =>
    intro a i
    show (if sdTarget a i = i then a
      else siftDownF f
        ((a.set i (a.getD (sdTarget a i) default)).set (sdTarget a i)
          (a.getD i default)) (sdTarget a i)).length = a.length
    by_cases hm : sdTarget a i = i
    · rw [if_pos hm]
    · rw [if_neg hm, ih]
      simp only [List.length_set]

theorem siftDownF_mem : ∀ (fuel : Nat) (a : List heapEntry) (i : Nat),
    i < a.length → ∀ y, (y ∈ siftDownF fuel a i ↔ y ∈ a) := by
  intro fuel
  induction fuel with
  | zero => intro a i _ y; exact Iff.rfl
  | succ f ih =>
    intro a i hi y
    show y ∈ (if sdTarget a i = i then a
      else siftDownF f
        ((a.set i (a.getD (sdTarget a i) default)).set (sdTarget a i)
          (a.getD i default)) (sdTarget a i)) ↔ y ∈ a
    by_cases hm : sdTarget a i = i
    · rw [if_pos hm]
    · rw [if_neg hm]
      obtain ⟨hgt, hlt⟩ := sdTarget_bounds hm
      rw [ih _ (sdTarget a i) (by simp only [List.length_set]; exact hlt) y]
      exact mem_set_set hi hlt y

theorem heapPush_length (h : List heapEntry) (x : heapEntry) :
    (heapPush h x).length = h.length + 1 := by
  unfold heapPush
  rw [siftUpF_length]
  simp

theorem heapPush_mem (h : List heapEntry) (x : heapEntry) (y : heapEntry) :
    y ∈ heapPush h x ↔ y ∈ h ∨ y = x := by
  unfold heapPush
  rw [siftUpF_mem _ _ _ (by simp)]
  simp

theorem heapPop_mem (x : heapEntry) (rest : List heapEntry) (y : heapEntry) :
    y ∈ heapPop (x :: rest) ↔ y ∈ rest := by
  cases rest with
  | nil => exact Iff.rfl
  | cons r0 rs =>
    show y ∈ siftDownF (r0 :: rs).length
      ((r0 :: rs).getLastD default :: (r0 :: rs).dropLast) 0 ↔ _
    rw [siftDownF_mem _ _ 0 (by simp)]
    have hne : (r0 :: rs) ≠ [] := by simp
    have hgl : (r0 :: rs).getLastD default = (r0 :: rs).getLast hne := by
      rw [List.getLastD_eq_getLast?, List.getLast?_eq_getLast _ hne]
      rfl
    rw [hgl]
    have hdec := List.dropLast_append_getLast hne
    constructor
    · intro hy
      have h2 : y ∈ (r0 :: rs).dropLast ++ [(r0 :: rs).getLast hne] := by
        rcases List.mem_cons.mp hy with rfl | hy'
        · exact List.mem_append.mpr (Or.inr (List.mem_singleton.mpr rfl))
        · exact List.mem_append.mpr (Or.inl hy')
      rwa [hdec] at h2
    · intro hy
      have h2 : y ∈ (r0 :: rs).dropLast ++ [(r0 :: rs).getLast hne] := by
        rwa [hdec]
      rcases List.mem_append.mp h2 with hy' | hy'
      · exact List.mem_cons_of_mem _ hy'
      · rw [List.mem_singleton] at hy'
        exact hy' ▸ List.mem_cons_self _ _

theorem heapPop_length (x : heapEntry) (rest : List heapEntry) :
    (heapPop (x :: rest)).length = rest.length := by
  cases rest with
  | nil => rfl
  | cons r0 rs =>
    show (siftDownF (r0 :: rs).length
      ((r0 :: rs).getLastD default :: (r0 :: rs).dropLast) 0).length = _
    rw [siftDownF_length]
    simp

theorem pushRowGo_ok {n : Nat} {w : Nat → Nat → Except TableError Nat}
    {f : Nat → Nat → Nat}
    (hw : ∀ i j, i < n → j < n → i ≠ j → w i j = .ok (f i j))
    {y : Nat} (hy : y < n) (es : List (Nat × Nat)) :
    ∀ (xs : List Nat) (h : List heapEntry),
      (∀ x ∈ xs, x < n ∧ x ≠ y) →
      ∃ h2, pushRowGo w y es xs h = .ok h2 ∧
        h2.length ≤ h.length + xs.length ∧
        (∀ e ∈ h, e ∈ h2) ∧
        (∀ e ∈ h2, e ∈ h ∨ (e.source = y ∧ e.destination < n)) := by
  intro xs
  induction xs with
  | nil =>
    intro h _
    exact ⟨h, rfl, by simp, fun e he => he, fun e he => Or.inl he⟩
  | cons x xs ih =>
    intro h hval
    have hx := hval x (List.mem_cons_self _ _)
    have hwx : w x y = .ok (f x y) := hw x y hx.1 hy hx.2
    have hunf : pushRowGo w y es (x :: xs) h =
        pushRowGo w y es xs
          (if treeContains es x then h else heapPush h ⟨y, x, f x y⟩) := by
      conv_lhs => rw [pushRowGo]
      rw [hwx]
    obtain ⟨h2, hrec, hlen, hsub, hnew⟩ :=
      ih (if treeContains es x then h else heapPush h ⟨y, x, f x y⟩)
        (fun z hz => hval z (List.mem_cons_of_mem _ hz))
    have hl1 : (if treeContains es x then h
        else heapPush h ⟨y, x, f x y⟩).length ≤ h.length + 1 := by
      by_cases hb : treeContains es x = true
      · rw [if_pos hb]; omega
      · rw [if_neg hb, heapPush_length]
    refine ⟨h2, by rw [hunf]; exact hrec, ?_, ?_, ?_⟩
    · simp only [List.length_cons]
      omega
    · intro e he
      refine hsub e ?_
      by_cases hb : treeContains es x = true
      · rw [if_pos hb]; exact he
      · rw [if_neg hb]
        exact (heapPush_mem h _ e).mpr (Or.inl he)
    · intro e he
      rcases hnew e he with h1mem | hnew'
      · by_cases hb : treeContains es x = true
        · rw [if_pos hb] at h1mem
          exact Or.inl h1mem
        · rw [if_neg hb] at h1mem
          rcases (heapPush_mem h _ e).mp h1mem with hmem | rfl
          · exact Or.inl hmem
          · exact Or.inr ⟨rfl, hx.1⟩
      · exact Or.inr hnew'

theorem initHeapGo_ok {n : Nat} {w : Nat → Nat → Except TableError Nat}
    {f : Nat → Nat → Nat}
    (hw : ∀ i j, i < n → j < n → i ≠ j → w i j = .ok (f i j))
    (h0 : 0 < n) :
    ∀ (xs : List Nat) (h : List heapEntry),
      (∀ x ∈ xs, x < n ∧ x ≠ 0) →
      ∃ h2, initHeapGo w xs h = .ok h2 ∧
        h2.length ≤ h.length + xs.length ∧
        (∀ e ∈ h, e ∈ h2) ∧
        (∀ e ∈ h2, e ∈ h ∨ (e.source = 0 ∧ e.destination < n)) ∧
        (∀ x ∈ xs, ∃ e ∈ h2, e.destination = x) := by
  intro xs
  induction xs with
  | nil =>
    intro h _
    exact ⟨h, rfl, by simp, fun e he => he, fun e he => Or.inl he,
      fun x hx => absurd hx (List.not_mem_nil x)⟩
  | cons x xs ih =>
    intro h hval
    have hx := hval x (List.mem_cons_self _ _)
    have hwx : w x 0 = .ok (f x 0) := hw x 0 hx.1 h0 hx.2
    have hunf : initHeapGo w (x :: xs) h =
        initHeapGo w xs (heapPush h ⟨0, x, f x 0⟩) := by
      conv_lhs => rw [initHeapGo]
      rw [hwx]
    obtain ⟨h2, hrec, hlen, hsub, hnew, hcov⟩ :=
      ih (heapPush h ⟨0, x, f x 0⟩)
        (fun z hz => hval z (List.mem_cons_of_mem _ hz))
    refine ⟨h2, by rw [hunf]; exact hrec, ?_, ?_, ?_, ?_⟩
    · rw [heapPush_length] at hlen
      simp only [List.length_cons]
      omega
    · intro e he
      exact hsub e ((heapPush_mem h _ e).mpr (Or.inl he))
    · intro e he
      rcases hnew e he with h1mem | hnew'
      · rcases (heapPush_mem h _ e).mp h1mem with hmem | rfl
        · exact Or.inl hmem
        · exact Or.inr ⟨rfl, hx.1⟩
      · exact Or.inr hnew'
    · intro z hz
      rcases List.mem_cons.mp hz with rfl | hz'
      · exact ⟨⟨0, z, f z 0⟩,
          hsub _ ((heapPush_mem h _ _).mpr (Or.inr rfl)), rfl⟩
      · exact hcov z hz'

/-- The loop of the heap-based `compute_mst` preserves its invariants: a
well-formed tree, entry sources inside the tree, and — crucially — at
least one heap entry aiming at every node still outside the tree, so the
heap is never popped empty.  The measure
`heap size + n · (missing nodes)` strictly decreases. -/
theorem heapLoop_ok {n : Nat} {w : Nat → Nat → Except TableError Nat}
    {f : Nat → Nat → Nat}
    (hw : ∀ i j, i < n → j < n → i ≠ j → w i j = .ok (f i j)) :
    ∀ (fuel : Nat) (h : List heapEntry) (es : List (Nat × Nat)),
      wfFromB [0] es = true →
      (∀ x ∈ nodesOf es, x < n) →
      es.length + 1 ≤ n →
      (∀ e ∈ h, e.source ∈ nodesOf es ∧ e.destination < n) →
      (∀ v, v < n → v ∉ nodesOf es → ∃ e ∈ h, e.destination = v) →
      h.length + n * (n - (es.length + 1)) < fuel →
      ∃ es2, heapLoop n w fuel h es = .ok es2 ∧
        wfFromB [0] es2 = true ∧ es2.length = n - 1 ∧
        (∀ x ∈ nodesOf es2, x < n) ∧ (∀ x, x < n → x ∈ nodesOf es2) := by
  intro fuel
  induction fuel with
  | zero => intro h es _ _ _ _ _ hb; omega
  | succ fu ih =>
    intro h es hwf hnlt hlen hH2 hH3 hbound
    have hnodes_len : (nodesOf es).length = es.length + 1 := by
      rw [nodesOf]; simp
    by_cases hcond : es.length + 1 < n
    · have hne : h ≠ [] := by
        intro hnil
        obtain ⟨v, hvlt, hvout⟩ :=
          @exists_missing (nodesOf es) n (nodes_nodup hwf) (by omega)
        obtain ⟨e, he, _⟩ := hH3 v hvlt hvout
        rw [hnil] at he
        simp at he
      cases h with
      | nil => exact absurd rfl hne
      | cons curr hrest =>
        have hcurr := hH2 curr (List.mem_cons_self _ _)
        by_cases hains : curr.destination ∈ nodesOf es
        · -- stale entry: insert fails, pop and continue
          have hins : try_insert es curr.source curr.destination = none := by
            unfold try_insert
            rw [if_pos (treeContains_iff.mpr hains)]
          have hstep : heapLoop n w (fu + 1) (curr :: hrest) es =
              heapLoop n w fu (heapPop (curr :: hrest)) es := by
            conv_lhs => rw [heapLoop]
            rw [if_pos hcond]
            show (match try_insert es curr.source curr.destination with
              | none => heapLoop n w fu (heapPop (curr :: hrest)) es
              | some es2 =>
                if curr.destination < n then
                  match pushRowGo w curr.destination es2
                      ((List.range n).filter fun x => x != curr.destination)
                      (heapPop (curr :: hrest)) with
                  | .error e => .error (.tableError e)
                  | .ok hh => heapLoop n w fu hh es2
                else .error (.tableError .outOfRange)) = _
            rw [hins]
          have hH3p : ∀ v, v < n → v ∉ nodesOf es →
              ∃ e ∈ heapPop (curr :: hrest), e.destination = v := by
            intro v hvlt hvout
            obtain ⟨e, he, hev⟩ := hH3 v hvlt hvout
            rcases List.mem_cons.mp he with rfl | he'
            · exact absurd (hev ▸ hains) hvout
            · exact ⟨e, (heapPop_mem curr hrest e).mpr he', hev⟩
          have hbp : (heapPop (curr :: hrest)).length +
              n * (n - (es.length + 1)) < fu := by
            rw [heapPop_length]
            simp only [List.length_cons] at hbound
            omega
          obtain ⟨es2, hloop, h1, h2, h3, h4⟩ :=
            ih (heapPop (curr :: hrest)) es hwf hnlt (by omega)
              (fun e he =>
                hH2 e (List.mem_cons_of_mem _ ((heapPop_mem curr hrest e).mp he)))
              hH3p hbp
          exact ⟨es2, by rw [hstep]; exact hloop, h1, h2, h3, h4⟩
        · -- fresh destination: insert, then push its row
          have hins : try_insert es curr.source curr.destination =
              some (es ++ [(curr.source, curr.destination)]) :=
            try_insert_fresh hains
          have hwf2 : wfFromB [0] (es ++ [(curr.source, curr.destination)]) = true :=
            (wf_append es [0]).mpr ⟨hwf, hcurr.1, hains⟩
          obtain ⟨h2, hpush, hplen, hpsub, hpnew⟩ :=
            pushRowGo_ok hw hcurr.2 (es ++ [(curr.source, curr.destination)])
              ((List.range n).filter (fun x => x != curr.destination))
              (heapPop (curr :: hrest))
              (by
                intro x hxm
                rw [List.mem_filter] at hxm
                refine ⟨List.mem_range.mp hxm.1, ?_⟩
                simpa using hxm.2)
          have hstep : heapLoop n w (fu + 1) (curr :: hrest) es =
              heapLoop n w fu h2 (es ++ [(curr.source, curr.destination)]) := by
            conv_lhs => rw [heapLoop]
            rw [if_pos hcond]
            show (match try_insert es curr.source curr.destination with
              | none => heapLoop n w fu (heapPop (curr :: hrest)) es
              | some es2 =>
                if curr.destination < n then
                  match pushRowGo w curr.destination es2
                      ((List.range n).filter fun x => x != curr.destination)
                      (heapPop (curr :: hrest)) with
                  | .error e => .error (.tableError e)
                  | .ok hh => heapLoop n w fu hh es2
                else .error (.tableError .outOfRange)) = _
            rw [hins]
            show (if curr.destination < n then
              match pushRowGo w curr.destination (es ++ [(curr.source, curr.destination)])
                  ((List.range n).filter fun x => x != curr.destination)
                  (heapPop (curr :: hrest)) with
              | .error e => Except.error (MstError.tableError e)
              | .ok hh => heapLoop n w fu hh (es ++ [(curr.source, curr.destination)])
              else Except.error (MstError.tableError TableError.outOfRange)) = _
            rw [if_pos hcurr.2, hpush]
          have hsub2 : ∀ x ∈ nodesOf es,
              x ∈ nodesOf (es ++ [(curr.source, curr.destination)]) := by
            intro x hx
            rw [nodesOf_append]
            exact List.mem_append.mpr (Or.inl hx)
          have hdest2 : curr.destination ∈
              nodesOf (es ++ [(curr.source, curr.destination)]) := by
            rw [nodesOf_append]
            exact List.mem_append.mpr (Or.inr (List.mem_singleton.mpr rfl))
          have hbp : h2.length +
              n * (n - ((es ++ [(curr.source, curr.destination)]).length + 1)) < fu := by
            have hxslen : ((List.range n).filter
                (fun x => x != curr.destination)).length ≤ n := by
              have := List.length_filter_le
                (fun x => x != curr.destination) (List.range n)
              simpa using this
            have hpoplen := heapPop_length curr hrest
            have hmul : n * (n - (es.length + 1 + 1)) + n =
                n * (n - (es.length + 1)) := by
              rw [show n - (es.length + 1) = (n - (es.length + 1 + 1)) + 1 by omega,
                Nat.mul_succ]
            simp only [List.length_append, List.length_singleton]
            simp only [List.length_cons] at hbound
            omega
          obtain ⟨es2, hloop, hq1, hq2, hq3, hq4⟩ :=
            ih h2 (es ++ [(curr.source, curr.destination)]) hwf2
              (by
                intro x hx
                rw [nodesOf_append] at hx
                rcases List.mem_append.mp hx with hx' | hx'
                · exact hnlt x hx'
                · rw [List.mem_singleton] at hx'
                  exact hx' ▸ hcurr.2)
              (by simp only [List.length_append, List.length_singleton]; omega)
              (by
                intro e he
                rcases hpnew e he with hmem | hnew'
                · have he' := (heapPop_mem curr hrest e).mp hmem
                  have hh := hH2 e (List.mem_cons_of_mem _ he')
                  exact ⟨hsub2 _ hh.1, hh.2⟩
                · exact ⟨hnew'.1 ▸ hdest2, hnew'.2⟩)
              (by
                intro v hvlt hvout
                have hvout1 : v ∉ nodesOf es := fun hmem => hvout (hsub2 v hmem)
                have hvne : v ≠ curr.destination := by
                  intro heq
                  exact hvout (heq ▸ hdest2)
                obtain ⟨e, he, hev⟩ := hH3 v hvlt hvout1
                rcases List.mem_cons.mp he with rfl | he'
                · exact absurd hev hvne.symm
                · exact ⟨e, hpsub e ((heapPop_mem curr hrest e).mpr he'), hev⟩)
              hbp
          exact ⟨es2, by rw [hstep]; exact hloop, hq1, hq2, hq3, hq4⟩
    · have heq : es.length + 1 = n := by omega
      have hstep : heapLoop n w (fu + 1) h es = .ok es := by
        cases h with
        | nil =>
          conv_lhs => rw [heapLoop]
          rw [if_neg hcond]
        | cons c r =>
          conv_lhs => rw [heapLoop]
          rw [if_neg hcond]
      exact ⟨es, hstep, hwf, by omega, hnlt,
        list_cover (nodes_nodup hwf) hnlt (by omega)⟩

theorem compute_mst_heap_ok {n : Nat} {w : Nat → Nat → Except TableError Nat}
    {f : Nat → Nat → Nat}
    (hw : ∀ i j, i < n → j < n → i ≠ j → w i j = .ok (f i j))
    (hn : 0 < n) :
    ∃ es, compute_mst_heap n w = .ok es ∧
      wfFromB [0] es = true ∧ es.length = n - 1 ∧
      (∀ x ∈ nodesOf es, x < n) ∧ (∀ x, x < n → x ∈ nodesOf es) := by
  obtain ⟨h0, hinit, hilen, _, hnew, hcov⟩ :=
    initHeapGo_ok hw hn ((List.range n).filter fun x => x != 0) []
      (by
        intro x hx
        rw [List.mem_filter] at hx
        refine ⟨List.mem_range.mp hx.1, ?_⟩
        simpa using hx.2)
  have hflen : ((List.range n).filter fun x => x != 0).length ≤ n := by
    have := List.length_filter_le (fun x => x != 0) (List.range n)
    simpa using this
  have hmul : n * (n - 1) + n = n * n := by
    rw [show n = (n - 1) + 1 by omega, Nat.mul_succ]
    congr 2 <;> omega
  obtain ⟨es, hloop, hq1, hq2, hq3, hq4⟩ :=
    heapLoop_ok hw (n * n + n) h0 [] rfl
      (by
        intro x hx
        rw [show nodesOf [] = [0] from rfl, List.mem_singleton] at hx
        omega)
      (by simp only [List.length_nil, Nat.zero_add]; omega)
      (by
        intro e he
        rcases hnew e he with hmem | hnew'
        · simp at hmem
        · exact ⟨by rw [hnew'.1]; exact List.mem_cons_self 0 _, hnew'.2⟩)
      (by
        intro v hvlt hvout
        rw [show nodesOf [] = [0] from rfl, List.mem_singleton] at hvout
        refine hcov v ?_
        rw [List.mem_filter]
        exact ⟨List.mem_range.mpr hvlt, by simpa using hvout⟩)
      (by simp only [List.length_nil, Nat.zero_add] at hilen ⊢; omega)
  refine ⟨es, ?_, hq1, hq2, hq3, hq4⟩
  unfold compute_mst_heap
  rw [if_pos hn, hinit]
  exact hloop

/-- Claim C4: for every `n ≥ 2` and every symmetric cost matrix
(non-negativity is automatic over `Nat`), both MST builders — the
array-scan `compute_mst` of part_000 and the heap-based `compute_mst` of
`img_sort.cpp` — return a tree with exactly `n - 1` edges in which node
`0` never appears as a child and every node `1 .. n-1` appears as a child
exactly once. -/
theorem mst_structure {n : Nat} {f : Nat → Nat → Nat}
    (hn : 2 ≤ n) (hsym : ∀ i j, f i j = f j i) :
    (∃ es, compute_mst n (okW f) = .ok es ∧ es.length = n - 1 ∧
      (∀ e ∈ es, e.2 ≠ 0) ∧
      (∀ c, 1 ≤ c → c < n → (es.map fun e => e.2).count c = 1)) ∧
    (∃ es, compute_mst_heap n (okW f) = .ok es ∧ es.length = n - 1 ∧
      (∀ e ∈ es, e.2 ≠ 0) ∧
      (∀ c, 1 ≤ c → c < n → (es.map fun e => e.2).count c = 1)) := by
  have hw : ∀ i j, i < n → j < n → i ≠ j → okW f i j = .ok (f i j) :=
    fun _ _ _ _ _ => rfl
  constructor
  · obtain ⟨es, hok, hwf, hlen, _, hcov⟩ := compute_mst_ok hw hn
    obtain ⟨hch, hcnt⟩ := tree_props hwf hcov
    exact ⟨es, hok, hlen, hch, hcnt⟩
  · obtain ⟨es, hok, hwf, hlen, _, hcov⟩ := compute_mst_heap_ok hw (by omega)
    obtain ⟨hch, hcnt⟩ := tree_props hwf hcov
    exact ⟨es, hok, hlen, hch, hcnt⟩

theorem mst_structure_wit :
    (2 ≤ 3 ∧ ∀ i j, w3e2e i j = w3e2e j i) ∧
    ((∃ es, compute_mst 3 (okW w3e2e) = .ok es ∧ es.length = 3 - 1 ∧
      (∀ e ∈ es, e.2 ≠ 0) ∧
      (∀ c, 1 ≤ c → c < 3 → (es.map fun e => e.2).count c = 1)) ∧
    (∃ es, compute_mst_heap 3 (okW w3e2e) = .ok es ∧ es.length = 3 - 1 ∧
      (∀ e ∈ es, e.2 ≠ 0) ∧
      (∀ c, 1 ≤ c → c < 3 → (es.map fun e => e.2).count c = 1))) := by
  have hsym : ∀ i j, w3e2e i j = w3e2e j i := by
    intro i j
    unfold w3e2e
    rw [Nat.min_comm i j, Nat.max_comm i j]
  exact ⟨⟨by decide, hsym⟩, mst_structure (by decide) hsym⟩

/-- Claim C6 (amended): the array-scan `compute_mst` rejects every
`n < 2` with `InvalidSize` and otherwise succeeds; the heap-based
`compute_mst` of `img_sort.cpp` checks only `size > 0` (the `tree`
constructor's assert), so it rejects `n = 0` but accepts `n = 1`,
returning the empty tree instead of `InvalidSize`. -/
theorem invalid_size_behaviour {n : Nat} {f : Nat → Nat → Nat} :
    (n < 2 → compute_mst n (okW f) = .error .invalidSize) ∧
    (2 ≤ n → ∃ es, compute_mst n (okW f) = .ok es) ∧
    (n = 0 → compute_mst_heap n (okW f) = .error .invalidSize) ∧
    (n = 1 → compute_mst_heap n (okW f) = .ok []) ∧
    (1 ≤ n → ∃ es, compute_mst_heap n (okW f) = .ok es) := by
  have hw : ∀ i j, i < n → j < n → i ≠ j → okW f i j = .ok (f i j) :=
    fun _ _ _ _ _ => rfl
  refine ⟨?_, ?_, ?_, ?_, ?_⟩
  · intro hlt
    unfold compute_mst
    rw [if_neg (by omega)]
  · intro hn
    obtain ⟨es, hok, _⟩ := compute_mst_ok hw hn
    exact ⟨es, hok⟩
  · intro h0
    subst h0
    rfl
  · intro h1
    subst h1
    rfl
  · intro hn
    obtain ⟨es, hok, _⟩ := compute_mst_heap_ok hw hn
    exact ⟨es, hok⟩

theorem invalid_size_behaviour_wit :
    compute_mst 1 (okW w3e2e) = .error .invalidSize ∧
    compute_mst_heap 1 (okW w3e2e) = .ok [] ∧
    compute_mst_heap 0 (okW w3e2e) = .error .invalidSize ∧
    (∃ es, compute_mst 4 (okW w4opt) = .ok es) ∧
    (∃ es, compute_mst_heap 4 (okW w4opt) = .ok es) :=
  ⟨(@invalid_size_behaviour 1 w3e2e).1 (by decide),
   (@invalid_size_behaviour 1 w3e2e).2.2.2.1 rfl,
   (@invalid_size_behaviour 0 w3e2e).2.2.1 rfl,
   (@invalid_size_behaviour 4 w4opt).2.1 (by decide),
   (@invalid_size_behaviour 4 w4opt).2.2.2.2 (by decide)⟩

/-- Claim C10: inside both MST builders every weight lookup happens at a
pair `i ≠ j` with both coordinates below `n`, so on a size-`n` table
satisfying the size invariant every lookup hits the in-range distinct-pair
branch of `operator()` and the whole construction succeeds — the
`InvalidPair` and `OutOfRange` branches are unreachable. -/
theorem mst_lookups_safe {n : Nat} (t : triangular_table Nat)
    (hn : 2 ≤ n) (hwid : t.width = n)
    (hlen : t.data.length = nth_triangular n - n) :
    (∃ es, compute_mst n t.get = .ok es) ∧
    (∃ es, compute_mst_heap n t.get = .ok es) := by
  have hw : ∀ i j, i < n → j < n → i ≠ j →
      t.get i j = .ok (t.data.getD (triIndex i j) 0) := by
    intro i j hi hj hij
    have hidx : triIndex i j < t.data.length := by
      rw [hlen]
      exact triIndex_lt_len hi hj hij
    unfold triangular_table.get
    rw [if_pos (by rw [hwid]; exact ⟨hi, hj⟩), if_pos hij]
    rw [List.get?_eq_getElem?, List.getElem?_eq_getElem hidx]
    rw [List.getD_eq_getElem?_getD, List.getElem?_eq_getElem hidx]
    rfl
  constructor
  · obtain ⟨es, hok, _⟩ := compute_mst_ok hw hn
    exact ⟨es, hok⟩
  · obtain ⟨es, hok, _⟩ := compute_mst_heap_ok hw (by omega)
    exact ⟨es, hok⟩

theorem mst_lookups_safe_wit :
    (2 ≤ 4 ∧ (⟨4, List.replicate 6 5⟩ : triangular_table Nat).width = 4 ∧
      (⟨4, List.replicate 6 5⟩ : triangular_table Nat).data.length =
        nth_triangular 4 - 4) ∧
    ((∃ es, compute_mst 4 (triangular_table.get ⟨4, List.replicate 6 5⟩) = .ok es) ∧
     (∃ es, compute_mst_heap 4 (triangular_table.get ⟨4, List.replicate 6 5⟩) = .ok es)) :=
  ⟨⟨by decide, rfl, by decide⟩,
   mst_lookups_safe ⟨4, List.replicate 6 5⟩ (by decide) rfl (by decide)⟩

end ImgSort
